import Mathlib

/-!
# libhyphenate `Hyphenator.cpp`: a shallow embedding

Strings (`std::string`) are lists of bytes, a byte being a natural number below 256
(`List Nat`).
Pointers into `src.c_str()` are byte offsets into the character array `src ++ [0]`.
A call ends either with a value or with a `Failure`.
In `hyphenate_at` byte offsets, lengths and loop counters are natural numbers; the `int` and
`uint` variables of the source hold them exactly for texts of fewer than `2^31` bytes.
-/

namespace Hyphenate

deriving instance DecidableEq for Except

/-- The ways a call can end without a value. -/
inductive Failure where
  /-- The `std::domain_error` thrown for text that is not valid UTF-8. -/
  | domain_error
  /-- The `std::out_of_range` thrown by `std::string::substr` when `pos > size()`. -/
  | out_of_range
  /-- A read outside the character array or outside the rule vector. -/
  | undefined
  /-- The loop budget of the embedding ran out. -/
  | diverged
  deriving DecidableEq

/-! ## UTF-8 collaborator (`ofUTF8`) -/

/-- The source's test `(b & 0xC0) == 0x80`: the byte is a UTF-8 tail byte. -/
def isTail (b : Nat) : Bool := b &&& 0xC0 == 0x80

/-- Tail byte, as a range test that also bounds the byte. -/
def isTrail (b : Nat) : Bool := decide (0x80 ≤ b) && decide (b < 0xC0)

/-- Modelled from the spec: `ofUTF8` is not part of the source file; this is the number of
bytes the "decode next code point at a byte offset" capability consumes for a lead byte. -/
def seqLen (b : Nat) : Nat :=
  if b < 0xC0 then 1 else if b < 0xE0 then 2 else if b < 0xF0 then 3 else if b < 0xF8 then 4 else 1

/-- Modelled from the spec: length of the well-formed UTF-8 sequence at the head of the
bytes ("validly decodable"), or `0` when there is none. `ofUTF8::isValid` is not part of
the source file. -/
def seqOk : List Nat → Nat
  | [] => 0
  | b0 :: rest =>
    if b0 < 0x80 then 1
    else if decide (0xC2 ≤ b0) && decide (b0 < 0xE0) then
      match rest with
      | b1 :: _ => if isTrail b1 then 2 else 0
      | _ => 0
    else if decide (0xE0 ≤ b0) && decide (b0 < 0xF0) then
      match rest with
      | b1 :: b2 :: _ =>
        if isTrail b1 && isTrail b2 && (b0 != 0xE0 || decide (0xA0 ≤ b1))
            && (b0 != 0xED || decide (b1 < 0xA0)) then 3 else 0
      | _ => 0
    else if decide (0xF0 ≤ b0) && decide (b0 < 0xF5) then
      match rest with
      | b1 :: b2 :: b3 :: _ =>
        if isTrail b1 && isTrail b2 && isTrail b3 && (b0 != 0xF0 || decide (0x90 ≤ b1))
            && (b0 != 0xF4 || decide (b1 < 0x90)) then 4 else 0
      | _ => 0
    else 0

/-- Validation loop with an explicit budget: one well-formed sequence per round. -/
def isValidAux : Nat → List Nat → Bool
  | _, [] => true
  | 0, _ :: _ => false
  | n + 1, b :: rest =>
    let k := seqOk (b :: rest)
    if k = 0 then false else isValidAux n ((b :: rest).drop k)

/-- Modelled from the spec: `ofUTF8::isValid`, the text is validly decodable. -/
def isValid (s : List Nat) : Bool := isValidAux s.length s

/-- Modelled from the spec: the code point encoded by the sequence at the head of the
bytes. -/
def decode : List Nat → Nat
  | [] => 0
  | b0 :: rest =>
    if b0 < 0xC0 then b0
    else if b0 < 0xE0 then (b0 % 0x20) * 0x40 + rest.headD 0 % 0x40
    else if b0 < 0xF0 then
      (b0 % 0x10) * 0x1000 + (rest.headD 0 % 0x40) * 0x40 + (rest.drop 1).headD 0 % 0x40
    else
      (b0 % 0x08) * 0x40000 + (rest.headD 0 % 0x40) * 0x1000
        + ((rest.drop 1).headD 0 % 0x40) * 0x40 + (rest.drop 2).headD 0 % 0x40

/-- The character array behind `src.c_str()`: the bytes and the terminator. -/
def cbuf (src : List Nat) : List Nat := src ++ [0]

/-- Read the byte at an offset of `src.c_str()`; offsets past the terminator are outside
the array. -/
def rd (src : List Nat) (p : Nat) : Except Failure Nat :=
  match (cbuf src)[p]? with
  | some b => .ok b
  | none => .error .undefined

/-- Modelled from the spec: `ofUTF8::get`, decode the code point at a byte offset. -/
def get (src : List Nat) (p : Nat) : Except Failure Nat :=
  if p ≤ src.length then .ok (decode ((cbuf src).drop p)) else .error .undefined

/-- Modelled from the spec: `ofUTF8::next`, the offset of the following code point. -/
def next (src : List Nat) (p : Nat) : Except Failure Nat := do
  let b ← rd src p
  pure (p + seqLen b)

/-- Modelled from the spec: `ofUTF8::prior`, step back over tail bytes to the lead byte
of the preceding code point. Stepping back from offset 0 leaves the array. -/
def prior (src : List Nat) : Nat → Except Failure Nat
  | 0 => .error .undefined
  | n + 1 => do
    let b ← rd src n
    if isTail b then prior src n else pure n

/-! ## Character classes (`ofUnicode`) -/

/-- The two classifications the code asks of `ofUnicode`, as functions of a code point. -/
structure CharClass where
  /-- The collaborator `ofUnicode::isAlpha`. -/
  isAlpha : Nat → Bool
  /-- The collaborator `ofUnicode::isSpace`. -/
  isSpace : Nat → Bool

/-- What every Unicode classification satisfies: the terminator `U+0000` is neither a
letter nor whitespace, and no code point is both. -/
structure CharClass.Sound (u : CharClass) : Prop where
  alpha_zero : u.isAlpha 0 = false
  space_zero : u.isSpace 0 = false
  disjoint : ∀ c, u.isSpace c = true → u.isAlpha c = false

/-! ## Hyphenation rules (`HyphenationRule`) -/

/-- Modelled from the spec: `HyphenationRule.h` is not part of the source file. A rule
carries the substitution of its pattern: the pre-hyphen replacement text, the post-hyphen
replacement text, the count of original letters consumed, and the minimum context needed
before the break. -/
structure HyphenationRule where
  /-- Text emitted just before the hyphen. -/
  pre : List Nat
  /-- Text emitted just after the hyphen. -/
  post : List Nat
  /-- Count of source letters the replacement consumes. -/
  skip : Nat
  /-- Minimum context required before the break. -/
  need : Nat
  deriving DecidableEq

/-- The ordinary rule: no replacement text, nothing consumed. -/
def HyphenationRule.ordinary : HyphenationRule := ⟨[], [], 0, 0⟩

/-- A rule without substitution. -/
def HyphenationRule.isOrdinary (r : HyphenationRule) : Bool :=
  r.pre.isEmpty && r.post.isEmpty && r.skip == 0

/-- Modelled from the spec: `apply_first`, the text preceding the break becomes the text
so far, then the pre-replacement, then the hyphen. -/
def HyphenationRule.apply_first (r : HyphenationRule) (word hyphen : List Nat) : List Nat :=
  word ++ r.pre ++ hyphen

/-- Modelled from the spec: `apply_second`, the text following the break starts with the
post-replacement; returns the new text and the count of letters to skip. -/
def HyphenationRule.apply_second (r : HyphenationRule) (word : List Nat) : List Nat × Nat :=
  (word ++ r.post, r.skip)

/-- Modelled from the spec: `apply`, both halves in a row. -/
def HyphenationRule.apply (r : HyphenationRule) (word hyphen : List Nat) : List Nat × Nat :=
  r.apply_second (r.apply_first word hyphen)

/-- The rule vector `applyPatterns` returns for a word: one optional rule per byte. -/
abbrev Rules := List (Option HyphenationRule)

/-- The dictionary, seen through `dictionary->applyPatterns(word)`. -/
abbrev Dictionary := List Nat → Rules

/-! ## `Hyphenator::hyphenate_word` -/

/-- The loop of `hyphenate_word` (lines 156-165): `i` is the index of the next byte,
`acc_skip` the count of bytes still to drop, `result` the output so far. -/
def wordLoop (rules : Rules) (hyphen : List Nat) :
    List Nat → Nat → Nat → List Nat → Except Failure (List Nat)
  | [], _, _, result => .ok result
  | b :: rest, i, acc_skip, result =>
    match rules[i]? with
    | none => .error .undefined
    | some none =>
      if acc_skip > 0 then wordLoop rules hyphen rest (i + 1) (acc_skip - 1) result
      else wordLoop rules hyphen rest (i + 1) acc_skip (result ++ [b])
    | some (some r) =>
      let applied := r.apply result hyphen
      let acc := acc_skip + applied.2
      if acc > 0 then wordLoop rules hyphen rest (i + 1) (acc - 1) applied.1
      else wordLoop rules hyphen rest (i + 1) acc (applied.1 ++ [b])

/-- `Hyphenator::hyphenate_word` (lines 141-168). -/
def hyphenate_word (dict : Dictionary) (word hyphen : List Nat) :
    Except Failure (List Nat) :=
  if !isValid word then .error .domain_error
  else wordLoop (dict word) hyphen word 0 0 []

/-! ## `Hyphenator::hyphenate` -/

/-- The constant `string::npos`, the largest value of a `size_t` of `sizeBits` bits. -/
def npos (sizeBits : Nat) : Nat := 2 ^ sizeBits - 1

/-- Conversion of a value to `unsigned int`. -/
def toUInt (n : Nat) : Nat := n % 2 ^ 32

/-- The call `s.substr(pos, count)`; it throws when `pos > size()`. -/
def substr (s : List Nat) (pos count : Nat) : Except Failure (List Nat) :=
  if pos > s.length then .error .out_of_range else .ok ((s.drop pos).take count)

/-- The call `s.substr(pos)`; it throws when `pos > size()`. -/
def substrFrom (s : List Nat) (pos : Nat) : Except Failure (List Nat) :=
  if pos > s.length then .error .out_of_range else .ok (s.drop pos)

/-- Lines 116-130 at byte index `i` holding the byte `b`: the new values of `word_start`
(the `unsigned int` of line 106) and `result`. Comparisons of `word_start` with
`string::npos` are made in `size_t`, assignments to it convert to `unsigned int`. -/
def textStep (sizeBits : Nat) (u : CharClass) (dict : Dictionary) (word hyphen : List Nat)
    (i b word_start : Nat) (result : List Nat) : Except Failure (Nat × List Nat) :=
  if isTail b then .ok (word_start, result)
  else do
    let c ← get word i
    if word_start == npos sizeBits && u.isAlpha c then
      pure (toUInt i, result)
    else if word_start != npos sizeBits && !u.isAlpha c then do
      let w ← substr word word_start (toUInt (i + 2 ^ 32 - word_start))
      let h ← hyphenate_word dict w hyphen
      pure (toUInt (npos sizeBits), result ++ h)
    else pure (word_start, result)

/-- The loop of `hyphenate` (lines 114-136). The first argument counts the bytes still to
visit, `i` is the loop counter, `word_start` the `unsigned int` of line 106 and `result`
the output so far. -/
def textLoop (sizeBits : Nat) (u : CharClass) (dict : Dictionary) (word hyphen : List Nat) :
    Nat → Nat → Nat → List Nat → Except Failure (List Nat)
  | 0, _, word_start, result =>
    if word_start != npos sizeBits then do
      let w ← substrFrom word word_start
      let h ← hyphenate_word dict w hyphen
      pure (result ++ h)
    else pure result
  | n + 1, i, word_start, result => do
    let b ← rd word i
    let st ← textStep sizeBits u dict word hyphen i b word_start result
    if st.1 == npos sizeBits then textLoop sizeBits u dict word hyphen n (i + 1) st.1 (st.2 ++ [b])
    else textLoop sizeBits u dict word hyphen n (i + 1) st.1 st.2

/-- `Hyphenator::hyphenate` (lines 101-139) on a target whose `size_t` has `sizeBits`
bits; `word_start` starts as `(unsigned int) -1`. -/
def hyphenate (sizeBits : Nat) (u : CharClass) (dict : Dictionary) (word hyphen : List Nat) :
    Except Failure (List Nat) :=
  if !isValid word then .error .domain_error
  else textLoop sizeBits u dict word hyphen word.length 0 (2 ^ 32 - 1) []

/-! ## `Hyphenator::hyphenate_at` -/

/-- Which return of `hyphenate_at` produced the pair. -/
inductive Branch where
  /-- Lines 188-200: whitespace at the limit or right after it. -/
  | space
  /-- Lines 278-286 with a candidate that passed the test of lines 257-259. -/
  | fit
  /-- Lines 278-286 with the earliest candidate, taken at line 275. -/
  | earliest
  /-- Lines 289-300: the first block is left standing. -/
  | block
  /-- Lines 301-312: whitespace found before the word. -/
  | spaceBefore
  deriving DecidableEq

/-- The constructor `string(p)` from a pointer into `src.c_str()`: the bytes up to the
first zero byte. -/
def cstr (src : List Nat) (p : Nat) : Except Failure (List Nat) :=
  if p ≤ src.length then .ok (((cbuf src).drop p).takeWhile (fun b => b != 0))
  else .error .undefined

/-- Lines 180-181: `len` calls of `ofUTF8::next`. -/
def advance (src : List Nat) : Nat → Nat → Except Failure Nat
  | 0, cur => .ok cur
  | n + 1, cur => do
    let c ← next src cur
    advance src n c

/-- The loops `while (isSpace(get(p))) p = prior(p);` of lines 192 and 305. -/
def backSpaces (u : CharClass) (src : List Nat) : Nat → Nat → Except Failure Nat
  | 0, _ => .error .diverged
  | n + 1, p => do
    let c ← get src p
    if u.isSpace c then do
      let q ← prior src p
      backSpaces u src n q
    else pure p

/-- The loops `while (isSpace(get(p))) p = next(p);` of lines 198 and 307. -/
def fwdSpaces (u : CharClass) (src : List Nat) : Nat → Nat → Except Failure Nat
  | 0, _ => .error .diverged
  | n + 1, p => do
    let c ← get src p
    if u.isSpace c then do
      let q ← next src p
      fwdSpaces u src n q
    else pure p

/-- The backward scan of lines 211-226; the state is `cur`, `in_word` and `word_start`
(`none` for `NULL`), the value is `cur` and `word_start` at the exit of the loop. -/
def findWordStart (u : CharClass) (src : List Nat) :
    Nat → Nat → Bool → Option Nat → Except Failure (Nat × Option Nat)
  | 0, _, _, _ => .error .diverged
  | n + 1, cur, in_word, word_start =>
    if cur > 0 then do
      let cur1 ← prior src cur
      let ch ← get src cur1
      if in_word && !u.isAlpha ch then do
        let ws ← next src cur1
        pure (cur1, some ws)
      else if u.isSpace ch then pure (cur1, word_start)
      else
        let in_word1 := if !in_word && u.isAlpha ch then true else in_word
        let word_start1 := if cur1 == 0 && in_word1 then some cur1 else word_start
        findWordStart u src n cur1 in_word1 word_start1
    else pure (cur, word_start)

/-- Lines 236-238: `while (isAlpha(get(word_end))) word_end = next(word_end);`. -/
def wordEnd (u : CharClass) (src : List Nat) : Nat → Nat → Except Failure Nat
  | 0, _ => .error .diverged
  | n + 1, p => do
    let c ← get src p
    if u.isAlpha c then do
      let q ← next src p
      wordEnd u src n q
    else pure p

/-- Lines 251-266 over the rule vector from index `i` on: the values of
`latest_possible_hyphenation` and `earliest_hyphenation` (with `-1` for none). -/
def scanRules (hyphen : List Nat) (word_start border : Nat) :
    Rules → Nat → Int → Int → Int × Int
  | [], _, latest, earliest => (latest, earliest)
  | none :: rest, i, latest, earliest =>
    scanRules hyphen word_start border rest (i + 1) latest earliest
  | some r :: rest, i, latest, earliest =>
    let earliest1 := if earliest == -1 then (i : Int) else earliest
    if word_start + i + r.need + hyphen.length ≤ border then
      scanRules hyphen word_start border rest (i + 1)
        (if (i : Int) > latest then (i : Int) else latest) earliest1
    else (latest, earliest1)

/-- Lines 268-273: is there whitespace from the start of the text to `word_start`. -/
def haveSpace (u : CharClass) (src : List Nat) (word_start : Nat) :
    Nat → Nat → Except Failure Bool
  | 0, _ => .error .diverged
  | n + 1, i =>
    if i ≤ word_start then do
      let c ← get src i
      if u.isSpace c then pure true
      else do
        let j ← next src i
        haveSpace u src word_start n j
    else pure false

/-- Lines 279-284: split at rule index `i` of the word starting at `word_start`. -/
def applyBest (src hyphen : List Nat) (rules : Rules) (word_start i : Nat) :
    Except Failure (List Nat × List Nat) :=
  match rules[i]? with
  | some (some r) => do
    let head ← substr src 0 (word_start + i)
    let second := r.apply_second []
    let rest ← cstr src (word_start + i + second.2)
    pure (r.apply_first head hyphen, second.1 ++ rest)
  | _ => .error .undefined

/-- Lines 233-287: try to hyphenate the word that starts at `word_start`. -/
def tryWord (u : CharClass) (dict : Dictionary) (src hyphen : List Nat) (border : Nat)
    (word_start : Nat) : Except Failure (Option (Branch × List Nat × List Nat)) := do
  let word_end ← wordEnd u src (src.length + 2) word_start
  let word := ((cbuf src).drop word_start).take (word_end - word_start)
  let rules := dict word
  let found := scanRules hyphen word_start border rules 0 (-1) (-1)
  let have_space ← haveSpace u src word_start (src.length + 2) 0
  let fitted := found.1 != -1
  let latest := if found.1 == -1 && !have_space then found.2 else found.1
  if latest ≥ 0 then do
    let pair ← applyBest src hyphen rules word_start latest.toNat
    pure (some (if fitted then Branch.fit else Branch.earliest, pair.1, pair.2))
  else pure none

/-- The loops of lines 293 and 297: advance while the byte is not the terminator and the
code point is (`sp = true`) or is not (`sp = false`) whitespace. -/
def blockScan (u : CharClass) (src : List Nat) (sp : Bool) : Nat → Nat → Except Failure Nat
  | 0, _ => .error .diverged
  | n + 1, eol => do
    let b ← rd src eol
    if b != 0 then do
      let c ← get src eol
      if u.isSpace c == sp then do
        let q ← next src eol
        blockScan u src sp n q
      else pure eol
    else pure eol

/-- Lines 289-300: leave the first block standing. -/
def firstBlock (u : CharClass) (src : List Nat) (cur : Nat) :
    Except Failure (Branch × List Nat × List Nat) := do
  let eol ← blockScan u src false (src.length + 2) cur
  let first ← substr src 0 (eol + 1)
  let bol ← blockScan u src true (src.length + 2) eol
  let second ← cstr src bol
  pure (Branch.block, first, second)

/-- Lines 301-312: break at the whitespace found before the word. -/
def spaceBefore (u : CharClass) (src : List Nat) (cur : Nat) :
    Except Failure (Branch × List Nat × List Nat) := do
  let eol ← backSpaces u src (src.length + 2) cur
  let bol ← fwdSpaces u src (src.length + 2) cur
  let first ← substr src 0 (eol + 1)
  let second ← cstr src bol
  pure (Branch.spaceBefore, first, second)

/-- Line 233: the word is tried only `if (word_start != NULL)`. -/
def tryWordAt (u : CharClass) (dict : Dictionary) (src hyphen : List Nat) (border : Nat) :
    Option Nat → Except Failure (Option (Branch × List Nat × List Nat))
  | some ws => tryWord u dict src hyphen border ws
  | none => .ok none

/-- The loop `while (true)` of lines 206-314. -/
def breakLoop (u : CharClass) (dict : Dictionary) (src hyphen : List Nat) (border : Nat) :
    Nat → Nat → Except Failure (Branch × List Nat × List Nat)
  | 0, _ => .error .diverged
  | n + 1, cur => do
    let c ← get src cur
    let found ← findWordStart u src (src.length + 2) cur (u.isAlpha c) none
    let hyph ← tryWordAt u dict src hyphen border found.2
    match hyph with
    | some r => pure r
    | none =>
      if found.1 == 0 then firstBlock u src found.1
      else do
        let d ← get src found.1
        if u.isSpace d then spaceBefore u src found.1
        else breakLoop u dict src hyphen border n found.1

/-- Lines 188-200: the break at whitespace at the limit. -/
def spaceBreak (u : CharClass) (src : List Nat) (cur nxt : Nat) :
    Except Failure (Branch × List Nat × List Nat) := do
  let cur1 ← backSpaces u src (src.length + 2) cur
  let first ← substr src 0 (cur1 + 1)
  let nxt1 ← fwdSpaces u src (src.length + 2) nxt
  let second ← substrFrom src nxt1
  pure (Branch.space, first, second)

/-- Lines 183-185: `next = cur; if (!isSpace(get(next))) next = ofUTF8::next(next);`. -/
def peekNext (u : CharClass) (src : List Nat) (cur : Nat) : Except Failure Nat := do
  let c ← get src cur
  if !u.isSpace c then next src cur else pure cur

/-- `Hyphenator::hyphenate_at` (lines 170-318), with the branch that returned. -/
def hyphenate_atTraced (u : CharClass) (dict : Dictionary) (src hyphen : List Nat)
    (len : Nat) : Except Failure (Branch × List Nat × List Nat) :=
  if !isValid src then .error .domain_error
  else do
    let cur ← advance src len 0
    let nxt ← peekNext u src cur
    let d ← get src nxt
    if u.isSpace d then spaceBreak u src cur nxt
    else breakLoop u dict src hyphen cur (src.length + 2) cur

/-- `Hyphenator::hyphenate_at` (lines 170-318): the pair `(first, second)`. -/
def hyphenate_at (u : CharClass) (dict : Dictionary) (src hyphen : List Nat) (len : Nat) :
    Except Failure (List Nat × List Nat) :=
  (hyphenate_atTraced u dict src hyphen len).map (fun r => r.2)

/-! ## Reference descriptions used by the properties -/

/-- Every rule of the vector is an ordinary one. -/
def allOrdinary (rules : Rules) : Bool :=
  rules.all (fun r => match r with
    | none => true
    | some x => x.isOrdinary)

/-- The word with one copy of the marker put immediately before each byte whose index
carries a rule, and nothing else changed. -/
def withMarkers (marker : List Nat) : Rules → List Nat → List Nat
  | _, [] => []
  | [], b :: bs => b :: bs
  | r :: rs, b :: bs => (if r.isSome then marker else []) ++ b :: withMarkers marker rs bs

/-- The count of rules in a rule vector. -/
def ruleCount (rules : Rules) : Nat := rules.countP (fun r => r.isSome)

/-- Deleting every occurrence of the marker as a substring, scanning left to right; the
first argument bounds the count of scan steps. -/
def removeMarkerAux (marker : List Nat) : Nat → List Nat → List Nat
  | 0, s => s
  | _ + 1, [] => []
  | n + 1, b :: rest =>
    if marker.isPrefixOf (b :: rest) then removeMarkerAux marker n ((b :: rest).drop marker.length)
    else b :: removeMarkerAux marker n rest

/-- Deleting every occurrence of the marker as a substring, scanning left to right. -/
def removeMarker (marker s : List Nat) : List Nat := removeMarkerAux marker s.length s

/-- A well-formed UTF-8 sequence: exactly the bytes of one code point. -/
def IsSeq (c : List Nat) : Prop := c ≠ [] ∧ seqOk c = c.length

/-- A list of well-formed sequences. -/
def Chunks (cs : List (List Nat)) : Prop := ∀ c ∈ cs, IsSeq c

/-- The code points of a text, decoded left to right; the first argument bounds the count
of code points. -/
def codePointsAux : Nat → List Nat → List Nat
  | 0, _ => []
  | _ + 1, [] => []
  | n + 1, b :: rest => decode (b :: rest) :: codePointsAux n ((b :: rest).drop (seqLen b))

/-- The code points of a text, decoded left to right. -/
def codePoints (s : List Nat) : List Nat := codePointsAux s.length s

/-- What `scanRules` guarantees of `latest_possible_hyphenation`. -/
def FitsAt (full : Rules) (hyphen : List Nat) (ws border : Nat) (l : Int) : Prop :=
  l = -1 ∨ ∃ (i : Nat) (r : HyphenationRule), l = i ∧ full[i]? = some (some r)
    ∧ ws + i + r.need + hyphen.length ≤ border

/-- Byte offset at which the code point of index `k` starts. -/
def off (cs : List (List Nat)) (k : Nat) : Nat := (cs.take k).flatten.length

/-- The code point of index `k`; past the last one it is the terminator `U+0000`. -/
def cpAt (cs : List (List Nat)) (k : Nat) : Nat :=
  match cs[k]? with
  | some c => decode c
  | none => 0

/-- The pair of a break inside a word: the word runs over the alphabetic code points of
index `m` up to `m'`, the break falls at byte `i` of it, where the dictionary has the rule
`r`; `f` is the text up to the break, the rule's pre-replacement and the marker, `s` the
rule's post-replacement and the text from the end of the consumed bytes to the first zero
byte. -/
def HyphShape (u : CharClass) (dict : Dictionary) (cs : List (List Nat))
    (marker f s : List Nat) : Prop :=
  ∃ (m m' i : Nat) (r : HyphenationRule), m ≤ m' ∧ m' ≤ cs.length
    ∧ (∀ q, m ≤ q → q < m' → u.isAlpha (cpAt cs q) = true)
    ∧ off cs m + i < off cs m'
    ∧ (dict (((cbuf cs.flatten).drop (off cs m)).take (off cs m' - off cs m)))[i]?
        = some (some r)
    ∧ f = cs.flatten.take (off cs m + i) ++ r.pre ++ marker
    ∧ s = r.post ++ (cs.flatten.drop (off cs m + i + r.skip)).takeWhile (fun b => b != 0)

/-- The pair of a break at whitespace: `f` ends one byte after the start of a code point
that is not whitespace, `s` begins at the start of a code point that is not whitespace (or
at the end of the text) and, for `cut = true`, ends before the first zero byte. -/
def SpaceShape (u : CharClass) (cs : List (List Nat)) (cut : Bool) (f s : List Nat) : Prop :=
  ∃ (j j' : Nat), j < cs.length ∧ j' ≤ cs.length
    ∧ u.isSpace (cpAt cs j) = false ∧ u.isSpace (cpAt cs j') = false
    ∧ f = cs.flatten.take (off cs j + 1)
    ∧ s = if cut then (cs.flatten.drop (off cs j')).takeWhile (fun b => b != 0)
          else cs.flatten.drop (off cs j')

/-- What each return of `hyphenate_at` hands back, by branch. -/
def Shape (u : CharClass) (dict : Dictionary) (cs : List (List Nat)) (marker : List Nat) :
    Branch × List Nat × List Nat → Prop
  | (Branch.space, f, s) => SpaceShape u cs false f s
  | (Branch.spaceBefore, f, s) => SpaceShape u cs true f s
  | (Branch.block, _, s) => ∃ j', j' ≤ cs.length ∧ u.isSpace (cpAt cs j') = false
      ∧ s = (cs.flatten.drop (off cs j')).takeWhile (fun b => b != 0)
  | (Branch.fit, f, s) => HyphShape u dict cs marker f s
  | (Branch.earliest, f, s) => HyphShape u dict cs marker f s

/-- The bytes end with a well-formed sequence that encodes a whitespace code point. -/
def EndsWithSpace (u : CharClass) (s : List Nat) : Prop :=
  ∃ p c, s = p ++ c ∧ IsSeq c ∧ u.isSpace (decode c) = true

/-- The bytes begin with a well-formed sequence that encodes a whitespace code point. -/
def BeginsWithSpace (u : CharClass) (s : List Nat) : Prop :=
  ∃ c t, s = c ++ t ∧ IsSeq c ∧ u.isSpace (decode c) = true

/-- Do the bytes begin with a well-formed sequence that encodes a whitespace code point. -/
def beginsWithSpace (u : CharClass) (s : List Nat) : Bool :=
  seqOk s != 0 && u.isSpace (decode (s.take (seqOk s)))

/-- Do the bytes end with a well-formed sequence (of one to four bytes) that encodes a
whitespace code point. -/
def endsWithSpace (u : CharClass) (s : List Nat) : Bool :=
  (List.range 4).any (fun k =>
    decide (k + 1 ≤ s.length) && seqOk (s.drop (s.length - (k + 1))) == k + 1
      && u.isSpace (decode (s.drop (s.length - (k + 1)))))

/-! ## Concrete inputs -/

/-- The marker `"-"`. -/
def dash : List Nat := [45]

/-- The word `"abc"`. -/
def wordAbc : List Nat := [97, 98, 99]

/-- The word `"abcdef"`. -/
def wordAbcdef : List Nat := [97, 98, 99, 100, 101, 102]

/-- The marker `"aba"`. -/
def markerAba : List Nat := [97, 98, 97]

/-- A dictionary whose rule vector for `"abc"` has one ordinary rule, at byte index 2. -/
def dictLast : Dictionary := fun _ => [none, none, some HyphenationRule.ordinary]

/-- A dictionary with ordinary rules at byte indices 2 and 4 of a six-byte word. -/
def dictTwo : Dictionary := fun _ =>
  [none, none, some HyphenationRule.ordinary, none, some HyphenationRule.ordinary, none]

/-- The exception rule `dd/d-=d` style substitution: `"x"` before the hyphen, `"yz"` after
it, two letters consumed. -/
def ruleSubst : HyphenationRule := ⟨[120], [121, 122], 2, 0⟩

/-- A dictionary whose only rule for a six-byte word is `ruleSubst` at byte index 3. -/
def dictSubst : Dictionary := fun _ => [none, none, none, some ruleSubst, none, none]

/-- A classification of the Latin range: ASCII and Latin-1/Extended-A letters are
alphabetic; the ASCII blanks and the no-break space are whitespace. -/
def latinClass : CharClass where
  isAlpha c := (decide (65 ≤ c) && decide (c ≤ 90)) || (decide (97 ≤ c) && decide (c ≤ 122))
    || (decide (0xC0 ≤ c) && decide (c ≤ 0x24F) && c != 0xD7 && c != 0xF7)
  isSpace c := c == 32 || (decide (9 ≤ c) && decide (c ≤ 13)) || c == 0xA0

/-- The dictionary without patterns: no rule anywhere. -/
def dictNone : Dictionary := fun w => w.map (fun _ => none)

/-- A dictionary with an ordinary rule at each byte index of the list, for every word. -/
def dictAt (is : List Nat) : Dictionary := fun w =>
  (List.range w.length).map (fun i => if i ∈ is then some HyphenationRule.ordinary else none)

/-- The text `"abcdef gh"`. -/
def textAbcdefGh : List Nat := [97, 98, 99, 100, 101, 102, 32, 103, 104]

/-- The text `"é b"`. -/
def textEB : List Nat := [195, 169, 32, 98]

/-- The text `"aa bb cc"`. -/
def textAaBbCc : List Nat := [97, 97, 32, 98, 98, 32, 99, 99]

/-- The text `"aaaa bb"`. -/
def textAaaaBb : List Nat := [97, 97, 97, 97, 32, 98, 98]

/-- The text `"supercalifragilistic"`. -/
def textSuper : List Nat :=
  [115, 117, 112, 101, 114, 99, 97, 108, 105, 102, 114, 97, 103, 105, 108, 105, 115, 116, 105, 99]

/-- An exception rule that puts `"x"` before the hyphen and needs five positions of context
before the break. -/
def ruleLook : HyphenationRule := ⟨[120], [], 0, 5⟩

/-- A dictionary whose rule vector has `ruleLook` at byte 1 and an ordinary rule at byte 2. -/
def dictMixed : Dictionary := fun _ =>
  [none, some ruleLook, some HyphenationRule.ordinary, none, none, none]

/-- The text `"ab-cdef"`. -/
def textAbCdef : List Nat := [97, 98, 45, 99, 100, 101, 102]

/-- The text `"a, "`. -/
def textBefore : List Nat := [97, 44, 32]

/-- The text `" gh"`. -/
def textAfter : List Nat := [32, 103, 104]

/-- The text `" ,"`: a blank and a comma, no alphabetic code point. -/
def textBlankComma : List Nat := [32, 44]

/-- The text `"é bbbb"`. -/
def textEBbbb : List Nat := [195, 169, 32, 98, 98, 98, 98]

/-- The text `"aaaa"`, a no-break space (`U+00A0`, two bytes), `"bb"`. -/
def textAaaaNbspBb : List Nat := [97, 97, 97, 97, 194, 160, 98, 98]

/-- The marker `" "`, a single blank. -/
def blank : List Nat := [32]

/-- The text `"aa bbbb"`. -/
def textAaBbbb : List Nat := [97, 97, 32, 98, 98, 98, 98]

/-- An exception rule that puts `"xx"` before the hyphen and needs two positions of context
before the break. -/
def ruleWide : HyphenationRule := ⟨[120, 120], [], 0, 2⟩

/-- A dictionary whose rule vector has `ruleWide` at byte 1 and an ordinary rule at byte 2. -/
def dictWide : Dictionary := fun _ =>
  [none, some ruleWide, some HyphenationRule.ordinary, none, none, none]

@[simp] theorem bind_ok {α β : Type} (a : α) (f : α → Except Failure β) :
    (Except.ok a >>= f) = f a := rfl

@[simp] theorem bind_error {α β : Type} (e : Failure) (f : α → Except Failure β) :
    ((Except.error e : Except Failure α) >>= f) = Except.error e := rfl

/-! ### `hyphenate_word` with ordinary rules -/

theorem ordinary_fields {r : HyphenationRule} (h : r.isOrdinary = true) :
    r.pre = [] ∧ r.post = [] ∧ r.skip = 0 := by
  simp [HyphenationRule.isOrdinary, List.isEmpty_iff] at h
  exact ⟨h.1.1, h.1.2, h.2⟩

theorem wordLoop_ordinary (rules : Rules) (hyphen : List Nat) :
    ∀ (bs : List Nat) (i : Nat) (result : List Nat),
      (rules.drop i).length = bs.length → allOrdinary (rules.drop i) = true →
      wordLoop rules hyphen bs i 0 result
        = .ok (result ++ withMarkers hyphen (rules.drop i) bs) := by
  intro bs
  induction bs with
  | nil => intro i result _ _; simp [wordLoop, withMarkers]
  | cons b rest ih =>
    intro i result hlen hord
    cases hd : rules.drop i with
    | nil => simp [hd] at hlen
    | cons r rs =>
      have hget : rules[i]? = some r := by
        have := List.getElem?_drop rules i 0
        simp [hd] at this
        simpa using this.symm
      have hdrop : rules.drop (i + 1) = rs := by
        have : rules.drop (i + 1) = (rules.drop i).drop 1 := by simp [List.drop_drop, Nat.add_comm]
        rw [this, hd]; rfl
      rw [hd] at hlen hord
      have hlen' : (rules.drop (i + 1)).length = rest.length := by
        rw [hdrop]; simpa using hlen
      have hord' : allOrdinary (rules.drop (i + 1)) = true := by
        rw [hdrop]; simp [allOrdinary] at hord ⊢; exact hord.2
      cases r with
      | none =>
        simp [wordLoop, hget, withMarkers, ih (i + 1) _ hlen' hord', hdrop]
      | some x =>
        have hx : x.isOrdinary = true := by
          simp [allOrdinary] at hord; exact hord.1
        obtain ⟨h1, h2, h3⟩ := ordinary_fields hx
        simp [wordLoop, hget, withMarkers, HyphenationRule.apply, HyphenationRule.apply_first,
          HyphenationRule.apply_second, h1, h2, h3, ih (i + 1) _ hlen' hord', hdrop]

theorem withMarkers_length (marker : List Nat) :
    ∀ (rules : Rules) (bs : List Nat), rules.length = bs.length →
      (withMarkers marker rules bs).length = bs.length + ruleCount rules * marker.length := by
  intro rules
  induction rules with
  | nil => intro bs h; cases bs <;> simp [withMarkers, ruleCount] at *
  | cons r rs ih =>
    intro bs h
    cases bs with
    | nil => simp at h
    | cons b rest =>
      have := ih rest (by simpa using h)
      cases r <;> simp [withMarkers, ruleCount, List.countP_cons, this] at * <;> ring

theorem hyphenate_word_eq_withMarkers (dict : Dictionary) (word marker : List Nat)
    (hvalid : isValid word = true) (hlen : (dict word).length = word.length)
    (hord : allOrdinary (dict word) = true) :
    hyphenate_word dict word marker = .ok (withMarkers marker (dict word) word) := by
  have := wordLoop_ordinary (dict word) marker word 0 [] (by simpa using hlen) (by simpa using hord)
  simpa [hyphenate_word, hvalid] using this

/-- C2: for a valid word and a rule vector with one entry per byte whose rules are all
ordinary, `hyphenate_word` returns the word with one copy of the marker immediately before
each byte index that carries a rule and nothing else changed, so the result has
`|word| + k * |marker|` bytes, `k` being the count of rules. -/
theorem hyphenate_word_ordinary (dict : Dictionary) (word marker : List Nat)
    (hvalid : isValid word = true) (hlen : (dict word).length = word.length)
    (hord : allOrdinary (dict word) = true) :
    hyphenate_word dict word marker = .ok (withMarkers marker (dict word) word)
      ∧ (withMarkers marker (dict word) word).length
          = word.length + ruleCount (dict word) * marker.length :=
  ⟨hyphenate_word_eq_withMarkers dict word marker hvalid hlen hord,
    withMarkers_length marker _ _ hlen⟩

/-- Witness of C2: `"abcdef"` with ordinary rules at bytes 2 and 4 and marker `"-"` gives
`"ab-cd-ef"`, of length `6 + 2 * 1`. -/
theorem hyphenate_word_ordinary_witness :
    isValid wordAbcdef = true ∧ (dictTwo wordAbcdef).length = wordAbcdef.length
      ∧ allOrdinary (dictTwo wordAbcdef) = true
      ∧ (hyphenate_word dictTwo wordAbcdef dash
            = .ok (withMarkers dash (dictTwo wordAbcdef) wordAbcdef)
          ∧ (withMarkers dash (dictTwo wordAbcdef) wordAbcdef).length
              = wordAbcdef.length + ruleCount (dictTwo wordAbcdef) * dash.length)
      ∧ withMarkers dash (dictTwo wordAbcdef) wordAbcdef = [97, 98, 45, 99, 100, 45, 101, 102] :=
  ⟨by decide, by decide, by decide,
    hyphenate_word_ordinary dictTwo wordAbcdef dash (by decide) (by decide) (by decide),
    by decide⟩

/-! ### Removing the marker again -/

theorem removeMarkerAux_nil (marker : List Nat) (n : Nat) : removeMarkerAux marker n [] = [] := by
  cases n <;> rfl

theorem removeMarkerAux_skip (m0 : Nat) (mt : List Nat) (n : Nat) (b : Nat) (t : List Nat)
    (hb : b ≠ m0) :
    removeMarkerAux (m0 :: mt) (n + 1) (b :: t) = b :: removeMarkerAux (m0 :: mt) n t := by
  have : (m0 :: mt).isPrefixOf (b :: t) = false := by
    simp [List.isPrefixOf, Ne.symm hb]
  simp [removeMarkerAux, this]

theorem removeMarkerAux_marker (m0 : Nat) (mt : List Nat) (n : Nat) (t : List Nat) :
    removeMarkerAux (m0 :: mt) (n + 1) ((m0 :: mt) ++ t) = removeMarkerAux (m0 :: mt) n t := by
  have h : (m0 :: mt).isPrefixOf (m0 :: (mt ++ t)) = true := by
    simp [List.isPrefixOf]
  have hd : List.drop (mt.length + 1) (m0 :: (mt ++ t)) = t := by
    simp
  show removeMarkerAux (m0 :: mt) (n + 1) (m0 :: (mt ++ t)) = _
  rw [removeMarkerAux, if_pos h, List.length_cons, hd]

theorem removeMarkerAux_withMarkers (m0 : Nat) (mt : List Nat) :
    ∀ (word : List Nat) (rules : Rules) (n : Nat),
      (∀ b ∈ word, b ≠ m0) →
      (withMarkers (m0 :: mt) rules word).length ≤ n →
      removeMarkerAux (m0 :: mt) n (withMarkers (m0 :: mt) rules word) = word := by
  intro word
  induction word with
  | nil => intro rules n _ _; simp [withMarkers, removeMarkerAux_nil]
  | cons b bs ih =>
    intro rules n hne hn
    have hb : b ≠ m0 := hne b (by simp)
    have hbs : ∀ x ∈ bs, x ≠ m0 := fun x hx => hne x (by simp [hx])
    cases rules with
    | nil =>
      simp only [withMarkers] at hn ⊢
      obtain ⟨n1, rfl⟩ : ∃ n1, n = n1 + 1 := ⟨n - 1, by simp at hn; omega⟩
      rw [removeMarkerAux_skip m0 mt n1 b bs hb]
      have := ih [] n1 hbs (by cases bs <;> simp [withMarkers] at hn ⊢; omega)
      have hnil : withMarkers (m0 :: mt) [] bs = bs := by cases bs <;> rfl
      rw [hnil] at this
      rw [this]
    | cons r rs =>
      cases r with
      | none =>
        simp only [withMarkers, Option.isSome_none, Bool.false_eq_true, if_false,
          List.nil_append] at hn ⊢
        obtain ⟨n1, rfl⟩ : ∃ n1, n = n1 + 1 := ⟨n - 1, by simp at hn; omega⟩
        rw [removeMarkerAux_skip m0 mt n1 b _ hb, ih rs n1 hbs (by simp at hn; omega)]
      | some x =>
        simp only [withMarkers, Option.isSome_some, if_true] at hn ⊢
        obtain ⟨n2, rfl⟩ : ∃ n2, n = n2 + 1 + 1 := ⟨n - 2, by simp at hn; omega⟩
        rw [removeMarkerAux_marker m0 mt (n2 + 1), removeMarkerAux_skip m0 mt n2 b _ hb,
          ih rs n2 hbs (by simp at hn; omega)]

/-- C3, as stated, fails: `"aba"` is not a substring of `"abc"`, the ordinary rule at byte 2
gives `"ab" ++ "aba" ++ "c"`, and deleting the occurrences of `"aba"` left to right removes
the one that starts at offset 0, leaving `"bac"`. -/
theorem roundtrip_counterexample :
    isValid wordAbc = true ∧ markerAba ≠ [] ∧ ¬ markerAba <:+: wordAbc
      ∧ (dictLast wordAbc).length = wordAbc.length ∧ allOrdinary (dictLast wordAbc) = true
      ∧ hyphenate_word dictLast wordAbc markerAba = .ok [97, 98, 97, 98, 97, 99]
      ∧ removeMarker markerAba [97, 98, 97, 98, 97, 99] = [98, 97, 99]
      ∧ (hyphenate_word dictLast wordAbc markerAba).map (removeMarker markerAba)
          ≠ .ok wordAbc := by
  refine ⟨by decide, by decide, by decide, by decide, by decide, by decide, by decide,
    by decide⟩

/-- C3, amended: for a valid word, a rule vector of ordinary rules with one entry per byte,
and a non-empty marker whose first byte does not occur in the word, deleting every
occurrence of the marker from `hyphenate_word word marker`, scanning left to right, gives
the word back. -/
theorem hyphenate_word_roundtrip (dict : Dictionary) (word marker : List Nat)
    (hvalid : isValid word = true) (hlen : (dict word).length = word.length)
    (hord : allOrdinary (dict word) = true) (hne : marker ≠ [])
    (hfirst : ∀ m0 ∈ marker.head?, m0 ∉ word) :
    (hyphenate_word dict word marker).map (removeMarker marker) = .ok word := by
  rw [hyphenate_word_eq_withMarkers dict word marker hvalid hlen hord]
  cases marker with
  | nil => exact absurd rfl hne
  | cons m0 mt =>
    have hm : ∀ b ∈ word, b ≠ m0 := by
      intro b hb heq
      exact hfirst m0 (by simp) (heq ▸ hb)
    show Except.ok (removeMarker (m0 :: mt) _) = _
    rw [removeMarker, removeMarkerAux_withMarkers m0 mt word (dict word) _ hm (Nat.le_refl _)]

/-- Witness of amended C3: `"abcdef"`, ordinary rules at bytes 2 and 4, marker `"-"`. -/
theorem hyphenate_word_roundtrip_witness :
    isValid wordAbcdef = true ∧ (dictTwo wordAbcdef).length = wordAbcdef.length
      ∧ allOrdinary (dictTwo wordAbcdef) = true ∧ dash ≠ []
      ∧ (∀ m0 ∈ dash.head?, m0 ∉ wordAbcdef)
      ∧ (hyphenate_word dictTwo wordAbcdef dash).map (removeMarker dash) = .ok wordAbcdef :=
  ⟨by decide, by decide, by decide, by decide, by decide,
    hyphenate_word_roundtrip dictTwo wordAbcdef dash (by decide) (by decide) (by decide)
      (by decide) (by decide)⟩

/-! ### `hyphenate_word` with one exception rule -/

/-- After the last rule: the pending `acc_skip` bytes are dropped, the rest is copied. -/
theorem wordLoop_no_rules (rules : Rules) (hyphen : List Nat) :
    ∀ (bs : List Nat) (k acc : Nat) (result : List Nat),
      (∀ j, k ≤ j → j < k + bs.length → rules[j]? = some none) →
      wordLoop rules hyphen bs k acc result = .ok (result ++ bs.drop acc) := by
  intro bs
  induction bs with
  | nil => intro k acc result _; simp [wordLoop]
  | cons b rest ih =>
    intro k acc result h
    have hk : rules[k]? = some none := h k (Nat.le_refl _) (by simp)
    have hrest : ∀ j, k + 1 ≤ j → j < k + 1 + rest.length → rules[j]? = some none := by
      intro j h1 h2
      exact h j (by omega) (by simp; omega)
    cases acc with
    | zero => simp [wordLoop, hk, ih (k + 1) 0 _ hrest]
    | succ a => simp [wordLoop, hk, ih (k + 1) a _ hrest]

/-- Up to and past the only rule of the vector. -/
theorem wordLoop_single (rules : Rules) (hyphen : List Nat) (i : Nat) (r : HyphenationRule)
    (hi : rules[i]? = some (some r)) :
    ∀ (bs : List Nat) (k : Nat) (result : List Nat),
      k ≤ i → i < k + bs.length →
      (∀ j, k ≤ j → j < k + bs.length → j ≠ i → rules[j]? = some none) →
      wordLoop rules hyphen bs k 0 result
        = .ok (result ++ bs.take (i - k) ++ r.pre ++ hyphen ++ r.post
            ++ bs.drop (i - k + r.skip)) := by
  intro bs
  induction bs with
  | nil => intro k result h1 h2 _; simp at h2; omega
  | cons b rest ih =>
    intro k result hki hik h
    have hrest : ∀ j, k + 1 ≤ j → j < k + 1 + rest.length → j ≠ i → rules[j]? = some none := by
      intro j h1 h2 h3
      exact h j (by omega) (by simp; omega) h3
    by_cases hk : k = i
    · subst hk
      have hnone : ∀ j, k + 1 ≤ j → j < k + 1 + rest.length → rules[j]? = some none := by
        intro j h1 h2
        exact hrest j h1 h2 (by omega)
      by_cases hs : r.skip = 0
      · simp [wordLoop, hi, HyphenationRule.apply, HyphenationRule.apply_first,
          HyphenationRule.apply_second, hs, wordLoop_no_rules rules hyphen rest (k + 1) _ _ hnone]
      · obtain ⟨s, hs'⟩ := Nat.exists_eq_succ_of_ne_zero hs
        simp [wordLoop, hi, HyphenationRule.apply, HyphenationRule.apply_first,
          HyphenationRule.apply_second, hs', wordLoop_no_rules rules hyphen rest (k + 1) _ _ hnone]
    · have hk' : rules[k]? = some none := h k (Nat.le_refl _) (by simp) hk
      have hlt : k + 1 ≤ i := by omega
      have hstep := ih (k + 1) (result ++ [b]) hlt (by simp at hik; omega) hrest
      obtain ⟨d, hd⟩ : ∃ d, i - k = d + 1 := ⟨i - k - 1, by omega⟩
      have hd' : i - (k + 1) = d := by omega
      have he : d + 1 + r.skip = (d + r.skip) + 1 := by omega
      simp [wordLoop, hk', hstep, hd, hd', he]

/-- C4: for a valid word whose rule vector (one entry per byte) has exactly one rule, at
byte index `i`, with pre-replacement `P`, post-replacement `Q` and `s` consumed letters,
`hyphenate_word` returns `word[0..i) ++ P ++ marker ++ Q ++ word[i+s..]`; the bound
`i + s ≤ |word|` of the claim is not needed, the last part being empty beyond it. -/
theorem hyphenate_word_exception (dict : Dictionary) (word marker : List Nat) (i : Nat)
    (r : HyphenationRule) (hvalid : isValid word = true)
    (hlen : (dict word).length = word.length)
    (hi : (dict word)[i]? = some (some r))
    (hothers : ∀ j, j < word.length → j ≠ i → (dict word)[j]? = some none) :
    hyphenate_word dict word marker
      = .ok (word.take i ++ r.pre ++ marker ++ r.post ++ word.drop (i + r.skip)) := by
  have hilt : i < word.length := by
    obtain ⟨h, _⟩ := List.getElem?_eq_some_iff.mp hi
    omega
  have := wordLoop_single (dict word) marker i r hi word 0 [] (Nat.zero_le _) (by simpa using hilt)
    (by intro j _ h2 h3; exact hothers j (by simpa using h2) h3)
  simpa [hyphenate_word, hvalid] using this

/-- Witness of C4: `"abcdef"` with the rule `ruleSubst` at byte 3 and marker `"-"` gives
`"abc" ++ "x" ++ "-" ++ "yz" ++ "f"`. -/
theorem hyphenate_word_exception_witness :
    isValid wordAbcdef = true ∧ (dictSubst wordAbcdef).length = wordAbcdef.length
      ∧ (dictSubst wordAbcdef)[3]? = some (some ruleSubst)
      ∧ (∀ j, j < wordAbcdef.length → j ≠ 3 → (dictSubst wordAbcdef)[j]? = some none)
      ∧ hyphenate_word dictSubst wordAbcdef dash
          = .ok (wordAbcdef.take 3 ++ ruleSubst.pre ++ dash ++ ruleSubst.post
              ++ wordAbcdef.drop (3 + ruleSubst.skip))
      ∧ wordAbcdef.take 3 ++ ruleSubst.pre ++ dash ++ ruleSubst.post
          ++ wordAbcdef.drop (3 + ruleSubst.skip) = [97, 98, 99, 120, 45, 121, 122, 102] :=
  ⟨by decide, by decide, by decide, by decide,
    hyphenate_word_exception dictSubst wordAbcdef dash 3 ruleSubst (by decide) (by decide)
      (by decide) (by decide),
    by decide⟩

/-! ### UTF-8 sequences and cursors -/

set_option maxRecDepth 20000 in
theorem isTail_eq_isTrail : ∀ b, b < 256 → isTail b = isTrail b := by
  decide

theorem isTrail_bounds {b : Nat} (h : isTrail b = true) : 0x80 ≤ b ∧ b < 0xC0 := by
  simpa [isTrail] using h

theorem isTail_of_isTrail {b : Nat} (h : isTrail b = true) : isTail b = true := by
  have hb := isTrail_bounds h
  rw [isTail_eq_isTrail b (by omega)]; exact h

theorem isTail_lead {b : Nat} (h : b < 0x80 ∨ (0xC0 ≤ b ∧ b < 256)) : isTail b = false := by
  have hb : b < 256 := by omega
  rw [isTail_eq_isTrail b hb]
  simp [isTrail]; omega

theorem seqOk_le_four (s : List Nat) : seqOk s ≤ 4 := by
  unfold seqOk
  split
  · omega
  · repeat' split
    all_goals omega

theorem IsSeq.shape {c : List Nat} (h : IsSeq c) :
    (∃ b0, c = [b0] ∧ b0 < 0x80)
    ∨ (∃ b0 b1, c = [b0, b1] ∧ 0xC2 ≤ b0 ∧ b0 < 0xE0 ∧ isTrail b1 = true)
    ∨ (∃ b0 b1 b2, c = [b0, b1, b2] ∧ 0xE0 ≤ b0 ∧ b0 < 0xF0 ∧ isTrail b1 = true
        ∧ isTrail b2 = true)
    ∨ (∃ b0 b1 b2 b3, c = [b0, b1, b2, b3] ∧ 0xF0 ≤ b0 ∧ b0 < 0xF5 ∧ isTrail b1 = true
        ∧ isTrail b2 = true ∧ isTrail b3 = true) := by
  obtain ⟨hne, hk⟩ := h
  rcases c with _ | ⟨b0, _ | ⟨b1, _ | ⟨b2, _ | ⟨b3, _ | ⟨b4, t⟩⟩⟩⟩⟩
  · exact absurd rfl hne
  · left
    refine ⟨b0, rfl, ?_⟩
    simp only [seqOk, List.length_singleton] at hk
    split_ifs at hk; simp_all
  · right; left
    refine ⟨b0, b1, rfl, ?_⟩
    simp only [seqOk, List.length_cons, List.length_nil] at hk
    split_ifs at hk <;> simp_all
  · right; right; left
    refine ⟨b0, b1, b2, rfl, ?_⟩
    simp only [seqOk, List.length_cons, List.length_nil] at hk
    split_ifs at hk <;> simp_all
  · right; right; right
    refine ⟨b0, b1, b2, b3, rfl, ?_⟩
    simp only [seqOk, List.length_cons, List.length_nil] at hk
    split_ifs at hk <;> simp_all
  · exfalso
    have := seqOk_le_four (b0 :: b1 :: b2 :: b3 :: b4 :: t)
    rw [hk] at this
    simp at this

@[simp] theorem map_ok {α β : Type} (a : α) (f : α → β) :
    f <$> (Except.ok a : Except Failure α) = Except.ok (f a) := rfl

@[simp] theorem pure_ok {α : Type} (a : α) : (pure a : Except Failure α) = Except.ok a := rfl

/-- What the cursor functions use of a well-formed sequence. -/
theorem IsSeq.facts {c : List Nat} (h : IsSeq c) :
    ∃ b0 t, c = b0 :: t ∧ seqLen b0 = c.length ∧ isTail b0 = false
      ∧ (∀ b ∈ t, isTail b = true) ∧ (∀ X, decode (c ++ X) = decode c)
      ∧ (∀ b ∈ c, b < 256) ∧ (b0 = 0 → c = [0]) ∧ (∀ b ∈ t, b ≠ 0)
      ∧ (b0 < 0x80 → decode c = b0) := by
  rcases h.shape with ⟨b0, rfl, h0⟩ | ⟨b0, b1, rfl, h0, h0', h1⟩
    | ⟨b0, b1, b2, rfl, h0, h0', h1, h2⟩ | ⟨b0, b1, b2, b3, rfl, h0, h0', h1, h2, h3⟩
  · have e1 : b0 < 192 := by omega
    refine ⟨b0, [], rfl, ?_, isTail_lead (Or.inl h0), by simp, ?_, ?_, ?_, by simp, ?_⟩
    · simp [seqLen, e1]
    · intro X; simp [decode, e1]
    · simp; omega
    · intro h; simp [h]
    · intro _; simp [decode, e1]
  · have t1 := isTrail_bounds h1
    have e1 : ¬ b0 < 192 := by omega
    refine ⟨b0, [b1], rfl, ?_, isTail_lead (Or.inr (by omega)), ?_, ?_, ?_, ?_, ?_, ?_⟩
    · simp [seqLen, e1, h0']
    · simp; exact isTail_of_isTrail h1
    · intro X
      simp [decode, e1, h0']
    · simp; omega
    · intro h; omega
    · simp; omega
    · intro h; omega
  · have t1 := isTrail_bounds h1
    have t2 := isTrail_bounds h2
    have e1 : ¬ b0 < 192 := by omega
    have e2 : ¬ b0 < 224 := by omega
    refine ⟨b0, [b1, b2], rfl, ?_, isTail_lead (Or.inr (by omega)), ?_, ?_, ?_, ?_, ?_, ?_⟩
    · simp [seqLen, e1, e2, h0']
    · simp; exact ⟨isTail_of_isTrail h1, isTail_of_isTrail h2⟩
    · intro X
      simp [decode, e1, e2, h0']
    · simp; omega
    · intro h; omega
    · simp; omega
    · intro h; omega
  · have t1 := isTrail_bounds h1
    have t2 := isTrail_bounds h2
    have t3 := isTrail_bounds h3
    have e1 : ¬ b0 < 192 := by omega
    have e2 : ¬ b0 < 224 := by omega
    have e3 : ¬ b0 < 240 := by omega
    have e4 : b0 < 248 := by omega
    refine ⟨b0, [b1, b2, b3], rfl, ?_, isTail_lead (Or.inr (by omega)), ?_, ?_, ?_, ?_, ?_, ?_⟩
    · simp [seqLen, e1, e2, e3, e4]
    · simp; exact ⟨isTail_of_isTrail h1, isTail_of_isTrail h2, isTail_of_isTrail h3⟩
    · intro X
      simp [decode, e1, e2, e3]
    · simp; omega
    · intro h; omega
    · simp; omega
    · intro h; omega

theorem rd_append (A B : List Nat) (b : Nat) : rd (A ++ b :: B) A.length = .ok b := by
  have : (cbuf (A ++ b :: B))[A.length]? = some b := by
    unfold cbuf
    rw [List.append_assoc, List.getElem?_append_right (Nat.le_refl _)]
    simp
  simp [rd, this]

theorem rd_end (src : List Nat) : rd src src.length = .ok 0 := by
  have : (cbuf src)[src.length]? = some 0 := by
    unfold cbuf
    rw [List.getElem?_append_right (Nat.le_refl _)]
    simp
  simp [rd, this]

theorem get_end (src : List Nat) : get src src.length = .ok 0 := by
  simp [get, cbuf, decode]

theorem get_append (A c B : List Nat) (h : IsSeq c) :
    get (A ++ (c ++ B)) A.length = .ok (decode c) := by
  obtain ⟨b0, t, rfl, _, _, _, hdec, _⟩ := h.facts
  have : List.drop A.length (cbuf (A ++ (b0 :: t ++ B))) = (b0 :: t) ++ (B ++ [0]) := by
    simp [cbuf]
  simp only [get, this, hdec]
  simp

theorem next_append (A c B : List Nat) (h : IsSeq c) :
    next (A ++ (c ++ B)) A.length = .ok (A.length + c.length) := by
  obtain ⟨b0, t, rfl, hlen, _⟩ := h.facts
  have : rd (A ++ (b0 :: t ++ B)) A.length = .ok b0 := rd_append A (t ++ B) b0
  simp only [next, this, bind_ok, pure_ok, hlen]

theorem prior_tails (A : List Nat) (b0 : Nat) (h0 : isTail b0 = false) :
    ∀ (t1 t2 : List Nat), (∀ b ∈ t1, isTail b = true) →
      prior (A ++ b0 :: (t1 ++ t2)) (A.length + 1 + t1.length) = .ok A.length := by
  intro t1
  induction t1 using List.reverseRecOn with
  | nil =>
    intro t2 _
    have : rd (A ++ b0 :: ([] ++ t2)) A.length = .ok b0 := rd_append A t2 b0
    show prior _ (A.length + 1) = _
    rw [prior]
    simp only [this, bind_ok, h0, pure_ok]
    simp
  | append_singleton t1 x ih =>
    intro t2 ht
    have hx : isTail x = true := ht x (by simp)
    have hrd : rd (A ++ b0 :: (t1 ++ [x] ++ t2)) (A.length + 1 + t1.length) = .ok x := by
      have := rd_append (A ++ b0 :: t1) t2 x
      simpa [Nat.add_assoc, Nat.add_comm 1] using this
    have ih' := ih (x :: t2) (fun b hb => ht b (by simp [hb]))
    have e : A.length + 1 + (t1 ++ [x]).length = (A.length + 1 + t1.length) + 1 := by simp; omega
    rw [e, prior]
    simp only [hrd, bind_ok, hx, if_true]
    simpa using ih'

theorem prior_append (A c B : List Nat) (h : IsSeq c) :
    prior (A ++ (c ++ B)) (A.length + c.length) = .ok A.length := by
  obtain ⟨b0, t, rfl, _, h0, ht, _⟩ := h.facts
  have := prior_tails A b0 h0 t B ht
  simpa [Nat.add_assoc, Nat.add_comm 1] using this

theorem seqOk_split (s : List Nat) (h : seqOk s ≠ 0) :
    ∃ c rest, s = c ++ rest ∧ IsSeq c ∧ c.length = seqOk s := by
  rcases s with _ | ⟨b0, rest⟩
  · simp [seqOk] at h
  · by_cases h1 : b0 < 0x80
    · refine ⟨[b0], rest, rfl, ⟨by simp, ?_⟩, ?_⟩ <;> simp [seqOk, h1]
    · by_cases h2 : (decide (0xC2 ≤ b0) && decide (b0 < 0xE0)) = true
      · rcases rest with _ | ⟨b1, r⟩
        · simp [seqOk, h1, h2] at h
        · by_cases t1 : isTrail b1 = true
          · refine ⟨[b0, b1], r, rfl, ⟨by simp, ?_⟩, ?_⟩ <;> simp [seqOk, h1, h2, t1]
          · simp [seqOk, h1, h2, t1] at h
      · by_cases h3 : (decide (0xE0 ≤ b0) && decide (b0 < 0xF0)) = true
        · rcases rest with _ | ⟨b1, _ | ⟨b2, r⟩⟩
          · simp [seqOk, h1, h2, h3] at h
          · simp [seqOk, h1, h2, h3] at h
          · by_cases t : (isTrail b1 && isTrail b2 && (b0 != 0xE0 || decide (0xA0 ≤ b1))
                && (b0 != 0xED || decide (b1 < 0xA0))) = true
            · refine ⟨[b0, b1, b2], r, rfl, ⟨by simp, ?_⟩, ?_⟩ <;> simp [seqOk, h1, h2, h3, t]
            · simp [seqOk, h1, h2, h3, t] at h
        · by_cases h4 : (decide (0xF0 ≤ b0) && decide (b0 < 0xF5)) = true
          · rcases rest with _ | ⟨b1, _ | ⟨b2, _ | ⟨b3, r⟩⟩⟩
            · simp [seqOk, h1, h2, h3, h4] at h
            · simp [seqOk, h1, h2, h3, h4] at h
            · simp [seqOk, h1, h2, h3, h4] at h
            · by_cases t : (isTrail b1 && isTrail b2 && isTrail b3
                  && (b0 != 0xF0 || decide (0x90 ≤ b1))
                  && (b0 != 0xF4 || decide (b1 < 0x90))) = true
              · refine ⟨[b0, b1, b2, b3], r, rfl, ⟨by simp, ?_⟩, ?_⟩ <;>
                  simp [seqOk, h1, h2, h3, h4, t]
              · simp [seqOk, h1, h2, h3, h4, t] at h
          · simp [seqOk, h1, h2, h3, h4] at h

theorem isValidAux_chunks : ∀ (n : Nat) (s : List Nat), isValidAux n s = true →
    ∃ cs, s = cs.flatten ∧ Chunks cs := by
  intro n
  induction n with
  | zero =>
    intro s h
    cases s with
    | nil => exact ⟨[], rfl, by simp [Chunks]⟩
    | cons b rest => simp [isValidAux] at h
  | succ n ih =>
    intro s h
    cases s with
    | nil => exact ⟨[], rfl, by simp [Chunks]⟩
    | cons b rest =>
      simp only [isValidAux] at h
      by_cases hk : seqOk (b :: rest) = 0
      · simp [hk] at h
      · simp only [hk, if_false] at h
        obtain ⟨c, r, hs, hc, hlen⟩ := seqOk_split (b :: rest) hk
        rw [← hlen, hs, List.drop_left] at h
        obtain ⟨cs, hcs, hch⟩ := ih r h
        refine ⟨c :: cs, by simp [hs, hcs], ?_⟩
        intro x hx
        rcases List.mem_cons.mp hx with rfl | hx
        · exact hc
        · exact hch x hx

theorem isValid_chunks {s : List Nat} (h : isValid s = true) :
    ∃ cs, s = cs.flatten ∧ Chunks cs := isValidAux_chunks _ _ h

theorem IsSeq.length_pos {c : List Nat} (h : IsSeq c) : 0 < c.length := by
  cases c with
  | nil => exact absurd rfl h.1
  | cons b t => simp

theorem Chunks.length_le {cs : List (List Nat)} (h : Chunks cs) : cs.length ≤ cs.flatten.length := by
  induction cs with
  | nil => simp
  | cons c cs ih =>
    have h1 := (h c (by simp)).length_pos
    have h2 := ih (fun x hx => h x (by simp [hx]))
    simp only [List.flatten_cons, List.length_append, List.length_cons]; omega

theorem codePointsAux_flatten : ∀ (cs : List (List Nat)) (n : Nat), Chunks cs → cs.length ≤ n →
    codePointsAux n cs.flatten = cs.map decode := by
  intro cs
  induction cs with
  | nil => intro n _ _; cases n <;> simp [codePointsAux]
  | cons c cs ih =>
    intro n h hn
    obtain ⟨m, rfl⟩ : ∃ m, n = m + 1 := ⟨n - 1, by simp at hn; omega⟩
    have hc := h c (by simp)
    obtain ⟨b0, t, rfl, hlen, _, _, hdec, _⟩ := hc.facts
    have hd : List.drop (seqLen b0) (b0 :: (t ++ cs.flatten)) = cs.flatten := by
      rw [hlen]
      have := List.drop_left (b0 :: t) cs.flatten
      simpa only [List.cons_append] using this
    have := ih m (fun x hx => h x (by simp [hx])) (by simp at hn; omega)
    have hdec' := hdec cs.flatten
    have e : ((b0 :: t) :: cs).flatten = b0 :: (t ++ cs.flatten) := by simp
    simp only [List.cons_append] at hdec'
    rw [e, codePointsAux, hd, this, hdec', List.map_cons]

theorem codePoints_flatten {cs : List (List Nat)} (h : Chunks cs) :
    codePoints cs.flatten = cs.map decode :=
  codePointsAux_flatten cs _ h h.length_le

theorem bind_eq_ok {α β : Type} {x : Except Failure α} {f : α → Except Failure β} {v : β} :
    (x >>= f) = .ok v ↔ ∃ a, x = .ok a ∧ f a = .ok v := by
  cases x with
  | error e => simp
  | ok a => simp

theorem prior_lt (src : List Nat) : ∀ (p q : Nat), prior src p = .ok q → q < p := by
  intro p
  induction p with
  | zero => intro q h; simp [prior] at h
  | succ n ih =>
    intro q h
    rw [prior] at h
    obtain ⟨b, _, h⟩ := bind_eq_ok.mp h
    by_cases hb : isTail b = true
    · simp only [hb, if_true] at h
      have := ih q h
      omega
    · simp only [hb] at h
      simp at h
      omega

theorem backSpaces_le (u : CharClass) (src : List Nat) :
    ∀ (n p q : Nat), backSpaces u src n p = .ok q → q ≤ p := by
  intro n
  induction n with
  | zero => intro p q h; simp [backSpaces] at h
  | succ n ih =>
    intro p q h
    rw [backSpaces] at h
    obtain ⟨c, _, h⟩ := bind_eq_ok.mp h
    by_cases hc : u.isSpace c = true
    · simp only [hc, if_true] at h
      obtain ⟨p1, hp1, h⟩ := bind_eq_ok.mp h
      have := ih p1 q h
      have := prior_lt src p p1 hp1
      omega
    · simp only [hc] at h
      simp at h
      omega

theorem backSpaces_lt (u : CharClass) (src : List Nat) (n p q c : Nat)
    (h : backSpaces u src n p = .ok q) (hg : get src p = .ok c) (hc : u.isSpace c = true) :
    q < p := by
  cases n with
  | zero => simp [backSpaces] at h
  | succ n =>
    rw [backSpaces] at h
    simp only [hg, bind_ok, hc, if_true] at h
    obtain ⟨p1, hp1, h⟩ := bind_eq_ok.mp h
    have := backSpaces_le u src n p1 q h
    have := prior_lt src p p1 hp1
    omega

theorem scanRules_fits (full : Rules) (hyphen : List Nat) (ws border : Nat) :
    ∀ (rest : Rules) (i : Nat) (latest earliest : Int), rest = full.drop i →
      FitsAt full hyphen ws border latest →
      FitsAt full hyphen ws border (scanRules hyphen ws border rest i latest earliest).1 := by
  intro rest
  induction rest with
  | nil => intro i latest earliest _ h; simpa [scanRules] using h
  | cons x rest ih =>
    intro i latest earliest hd h
    have hget : full[i]? = some x := by
      have := List.getElem?_drop full i 0
      rw [← hd] at this
      simpa using this.symm
    have hdrop : rest = full.drop (i + 1) := by
      have : full.drop (i + 1) = (full.drop i).drop 1 := by simp [List.drop_drop, Nat.add_comm]
      rw [this, ← hd]; rfl
    cases x with
    | none => simpa [scanRules] using ih (i + 1) latest earliest hdrop h
    | some r =>
      rw [scanRules]
      by_cases hfit : ws + i + r.need + hyphen.length ≤ border
      · simp only [hfit, if_true]
        apply ih (i + 1) _ _ hdrop
        by_cases hgt : (i : Int) > latest
        · simp only [hgt, if_true]
          exact Or.inr ⟨i, r, rfl, hget, hfit⟩
        · simpa only [hgt, if_false] using h
      · simpa only [hfit, if_false] using h

theorem latinClass_sound : latinClass.Sound := by
  refine ⟨by decide, by decide, ?_⟩
  intro c h
  simp only [latinClass, Bool.or_eq_true, beq_iff_eq, Bool.and_eq_true, decide_eq_true_eq] at h
  simp only [latinClass]
  rcases h with (h | h) | h
  · subst h; decide
  · have : c = 9 ∨ c = 10 ∨ c = 11 ∨ c = 12 ∨ c = 13 := by omega
    rcases this with h | h | h | h | h <;> subst h <;> decide
  · subst h; decide

theorem rd_lt (src : List Nat) (p : Nat) (h : p < src.length) : ∃ b, rd src p = .ok b := by
  have : p < (cbuf src).length := by simp [cbuf]; omega
  refine ⟨(cbuf src)[p], ?_⟩
  simp [rd, List.getElem?_eq_getElem this]

/-- When `word_start` holds a value `m` that is not `string::npos` and lies beyond the end
of the text, the loop of `hyphenate` ends in `std::out_of_range`. -/
theorem textLoop_stuck (sizeBits : Nat) (u : CharClass) (dict : Dictionary)
    (word hyphen : List Nat) (m : Nat) (hm : (m == npos sizeBits) = false)
    (hlen : word.length < m) :
    ∀ (n i : Nat) (result : List Nat), i + n = word.length →
      textLoop sizeBits u dict word hyphen n i m result = .error .out_of_range := by
  have hm' : (m != npos sizeBits) = true := by simp [bne, hm]
  have hsub : ∀ k, substr word m k = .error .out_of_range := by
    intro k
    simp only [substr]
    rw [if_pos (by omega)]
  have hsubF : substrFrom word m = .error .out_of_range := by
    simp only [substrFrom]
    rw [if_pos (by omega)]
  intro n
  induction n with
  | zero =>
    intro i result _
    rw [textLoop]
    simp only [hm', if_true, hsubF, bind_error]
  | succ n ih =>
    intro i result hi
    obtain ⟨b, hb⟩ := rd_lt word i (by omega)
    have hg : get word i = .ok (decode ((cbuf word).drop i)) := by
      simp only [get]
      rw [if_pos (by omega)]
    have hstep : textStep sizeBits u dict word hyphen i b m result = .ok (m, result)
        ∨ textStep sizeBits u dict word hyphen i b m result = .error .out_of_range := by
      unfold textStep
      by_cases ht : isTail b = true
      · left; rw [if_pos ht]
      · rw [if_neg ht, hg]
        simp only [bind_ok, hm, Bool.false_and, Bool.false_eq_true, if_false, hm',
          Bool.true_and]
        by_cases ha : u.isAlpha (decode ((cbuf word).drop i)) = true
        · left; simp only [ha, Bool.not_true, Bool.false_eq_true, if_false, pure_ok]
        · right; simp only [ha, Bool.not_false, if_true, hsub, bind_error]
    rw [textLoop]
    simp only [hb, bind_ok]
    rcases hstep with hs | hs
    · rw [hs]
      simp only [bind_ok, hm, Bool.false_eq_true, if_false]
      exact ih (i + 1) result (by omega)
    · rw [hs]
      rfl

/-- C1 fails on a target whose `size_t` has 64 bits: `word_start` is an `unsigned int`, so
after `word_start = -1` or `word_start = string::npos` it holds `2^32 - 1`, which never
equals the 64-bit `string::npos`; for every valid text of fewer than `2^32 - 1` bytes
`hyphenate` ends in the `std::out_of_range` of `substr` instead of returning the
concatenation of the runs. -/
theorem hyphenate_lp64_out_of_range (u : CharClass) (dict : Dictionary)
    (text marker : List Nat) (hvalid : isValid text = true)
    (hlen : text.length < 2 ^ 32 - 1) :
    hyphenate 64 u dict text marker = .error .out_of_range := by
  simp only [hyphenate, hvalid, Bool.not_true, Bool.false_eq_true, if_false]
  exact textLoop_stuck 64 u dict text marker (2 ^ 32 - 1) (by decide) hlen _ 0 [] (by omega)

/-- Witness of the C1 failure: `"abcdef gh"` with an ordinary rule at byte 2 of each word
fails with `size_t` of 64 bits, and gives `"ab-cdef gh"` when `size_t` has 32 bits. -/
theorem hyphenate_lp64_out_of_range_witness :
    isValid textAbcdefGh = true ∧ textAbcdefGh.length < 2 ^ 32 - 1
      ∧ hyphenate 64 latinClass (dictAt [2]) textAbcdefGh dash = .error .out_of_range
      ∧ hyphenate 32 latinClass (dictAt [2]) textAbcdefGh dash
          = .ok [97, 98, 45, 99, 100, 101, 102, 32, 103, 104] :=
  ⟨by decide, by decide,
    hyphenate_lp64_out_of_range latinClass (dictAt [2]) textAbcdefGh dash (by decide) (by decide),
    by decide⟩

/-- C5 fails on a target whose `size_t` has 64 bits: the valid texts `""` and `"a"` make
`hyphenate` raise `std::out_of_range`, an error other than the invalid-text error; the
invalid text `[0xC3]` raises the invalid-text error on both targets. -/
theorem hyphenate_lp64_other_error :
    isValid [] = true ∧ hyphenate 64 latinClass dictNone [] dash = .error .out_of_range
      ∧ isValid [97] = true ∧ hyphenate 64 latinClass dictNone [97] dash = .error .out_of_range
      ∧ hyphenate 32 latinClass dictNone [97] dash = .ok [97]
      ∧ isValid [195] = false ∧ hyphenate 64 latinClass dictNone [195] dash = .error .domain_error
      ∧ hyphenate 32 latinClass dictNone [195] dash = .error .domain_error := by
  refine ⟨by decide, by decide, by decide, by decide, by decide, by decide, by decide, by decide⟩

/-! ### Concrete runs of `hyphenate_at` -/

/-- C6 fails on the code. With a multi-byte code point before the whitespace, `"é b"` and
`columnLimit = 1`, the first line is cut after one byte: `firstLine` is the lone lead byte
`0xC3`, which is not valid UTF-8, and the dropped bytes `0xA9 0x20` are not whitespace only.
With leading whitespace, `" a"` and `columnLimit = 0`, the backward scan of line 193 steps
before the start of the text. The witness of the claim, `"aa bb cc"` with `columnLimit = 2`,
does give `("aa", "bb cc")`. -/
theorem whitespace_break_runs :
    isValid textEB = true ∧ codePoints textEB = [0xE9, 32, 98]
      ∧ latinClass.isSpace 32 = true
      ∧ hyphenate_at latinClass dictNone textEB dash 1 = .ok ([195], [98])
      ∧ isValid [195] = false
      ∧ textEB = [195] ++ [169, 32] ++ [98] ∧ isValid [169, 32] = false
      ∧ isValid [32, 97] = true
      ∧ hyphenate_at latinClass dictNone [32, 97] dash 0 = .error .undefined
      ∧ hyphenate_at latinClass dictNone textAaBbCc dash 2
          = .ok ([97, 97], [98, 98, 32, 99, 99]) := by
  refine ⟨by decide, by decide, by decide, by decide, by decide, by decide, by decide,
    by decide, by decide, by decide⟩

/-- C10 fails on the code: for `"aaaa bb"`, `columnLimit = 2` and a dictionary without
patterns, line 296 takes `eol - src.c_str() + 1` bytes although `eol` already stands on the
whitespace, so `firstLine` is `"aaaa "` with the blank, not `"aaaa"`. The witness of the
claim, a text without whitespace, does give `(text, "")`. -/
theorem first_block_runs :
    isValid textAaaaBb = true
      ∧ dictNone [97, 97, 97, 97] = [none, none, none, none]
      ∧ hyphenate_atTraced latinClass dictNone textAaaaBb dash 2
          = .ok (Branch.block, [97, 97, 97, 97, 32], [98, 98])
      ∧ hyphenate_at latinClass dictNone textAaaaBb dash 2 ≠ .ok ([97, 97, 97, 97], [98, 98])
      ∧ hyphenate_atTraced latinClass dictNone textSuper dash 3
          = .ok (Branch.block, textSuper, []) := by
  refine ⟨by decide, by decide, by decide, by decide, by decide⟩

/-! ### The fallback to the earliest candidate -/

theorem Chunks.take {cs : List (List Nat)} (h : Chunks cs) (n : Nat) : Chunks (cs.take n) :=
  fun c hc => h c (List.mem_of_mem_take hc)

theorem Chunks.drop {cs : List (List Nat)} (h : Chunks cs) (n : Nat) : Chunks (cs.drop n) :=
  fun c hc => h c (List.mem_of_mem_drop hc)

theorem not_space_of_alpha (u : CharClass) (hu : u.Sound) {c : Nat}
    (h : u.isAlpha c = true) : u.isSpace c = false := by
  cases hs : u.isSpace c with
  | false => rfl
  | true => rw [hu.disjoint _ hs] at h; exact absurd h (by simp)

theorem IsSeq.seqOk_append {c : List Nat} (h : IsSeq c) (X : List Nat) :
    seqOk (c ++ X) = c.length := by
  have hk := h.2
  rcases h.shape with ⟨b0, rfl, h0⟩ | ⟨b0, b1, rfl, h0, h0', h1⟩
    | ⟨b0, b1, b2, rfl, h0, h0', h1, h2⟩ | ⟨b0, b1, b2, b3, rfl, h0, h0', h1, h2, h3⟩
  · simp [seqOk, h0]
  · have e1 : ¬ b0 < 128 := by omega
    have e2 : 194 ≤ b0 := h0
    simp [seqOk, e1, e2, h0', h1]
  · have e1 : ¬ b0 < 128 := by omega
    have e2 : ¬ b0 < 224 := by omega
    simp only [seqOk, List.length_cons, List.length_nil] at hk
    simp only [List.cons_append, List.nil_append, seqOk, List.length_cons, List.length_nil]
    have e3 : (decide (224 ≤ b0) && decide (b0 < 240)) = true := by simp [h0, h0']
    simp only [e1, e2, if_false, decide_False, Bool.and_false, Bool.false_eq_true, e3,
      if_true] at hk ⊢
    exact hk
  · rw [← hk]; rfl

theorem chunks_isValidAux : ∀ (cs : List (List Nat)) (n : Nat), Chunks cs →
    cs.flatten.length ≤ n → isValidAux n cs.flatten = true := by
  intro cs
  induction cs with
  | nil => intro n _ _; cases n <;> rfl
  | cons c cs ih =>
    intro n hch hn
    have hc : IsSeq c := hch c (by simp)
    have hpos := hc.length_pos
    obtain ⟨b0, t, rfl, _⟩ := hc.facts
    obtain ⟨m, rfl⟩ : ∃ m, n = m + 1 := ⟨n - 1, by simp at hn; omega⟩
    have hk := hc.seqOk_append cs.flatten
    have e : ((b0 :: t) :: cs).flatten = b0 :: (t ++ cs.flatten) := by simp
    have hd : List.drop (b0 :: t).length (b0 :: (t ++ cs.flatten)) = cs.flatten := by
      have := List.drop_left (b0 :: t) cs.flatten
      simpa only [List.cons_append] using this
    simp only [List.cons_append] at hk
    rw [e, isValidAux]
    simp only [hk, hd]
    rw [if_neg (by simp)]
    exact ih m (fun x hx => hch x (by simp [hx]))
      (by simp only [List.flatten_cons, List.length_append, List.length_cons] at hn; omega)

theorem chunks_isValid {cs : List (List Nat)} (h : Chunks cs) : isValid cs.flatten = true :=
  chunks_isValidAux cs _ h (Nat.le_refl _)

/-- The whitespace search of lines 268-273 stays inside the text and ends. -/
theorem haveSpace_ok (u : CharClass) (src : List Nat) (ws : Nat) (hws : ws ≤ src.length) :
    ∀ (n i : Nat), ws + 1 - i + 1 ≤ n → ∃ b, haveSpace u src ws n i = .ok b := by
  intro n
  induction n with
  | zero => intro i h; omega
  | succ n ih =>
    intro i h
    rw [haveSpace]
    by_cases hi : i ≤ ws
    · have hg : get src i = .ok (decode ((cbuf src).drop i)) := by
        simp only [get]
        rw [if_pos (by omega)]
      have hlt : i < (cbuf src).length := by simp [cbuf]; omega
      have hr : rd src i = .ok ((cbuf src)[i]) := by
        simp [rd, List.getElem?_eq_getElem hlt]
      have hpos : 1 ≤ seqLen ((cbuf src)[i]) := by
        unfold seqLen
        split_ifs <;> omega
      simp only [if_pos hi, hg, bind_ok, next, hr, pure_ok]
      by_cases hs : u.isSpace (decode ((cbuf src).drop i)) = true
      · exact ⟨true, by simp [hs]⟩
      · simp only [hs, if_false]
        exact ih _ (by omega)
    · exact ⟨false, by simp [hi]⟩

theorem applyBest_at (src hyphen : List Nat) (rules : Rules) (ws g : Nat)
    (r : HyphenationRule) (hg : rules[g]? = some (some r))
    (hin : ws + g + r.skip ≤ src.length) :
    applyBest src hyphen rules ws g
      = .ok (src.take (ws + g) ++ r.pre ++ hyphen,
          r.post ++ ((cbuf src).drop (ws + g + r.skip)).takeWhile (fun b => b != 0)) := by
  simp only [applyBest, hg, substr, Nat.not_lt_zero, if_false, bind_ok, List.drop_zero,
    HyphenationRule.apply_second, List.nil_append, cstr, hin, if_true,
    HyphenationRule.apply_first, pure_ok]

theorem takeWhile_cbuf (src : List Nat) (k : Nat) (hk : k ≤ src.length) :
    ((cbuf src).drop k).takeWhile (fun b => b != 0)
      = (src.drop k).takeWhile (fun b => b != 0) := by
  have h1 : List.drop k (cbuf src) = src.drop k ++ [0] := by
    simp [cbuf, List.drop_append_of_le_length hk]
  rw [h1]
  generalize src.drop k = l
  induction l with
  | nil => simp
  | cons x l ih =>
    by_cases hx : (x != 0) = true
    · simp only [List.cons_append, List.takeWhile_cons, hx, if_true, ih]
    · simp [List.takeWhile_cons, hx]

theorem dictAt_get (is : List Nat) (w : List Nat) (i : Nat) (r : HyphenationRule)
    (h : (dictAt is w)[i]? = some (some r)) : r = HyphenationRule.ordinary ∧ i ∈ is := by
  simp only [dictAt, List.getElem?_map] at h
  cases hi : (List.range w.length)[i]? with
  | none => simp [hi] at h
  | some j =>
    have hj : j = i := by
      rw [List.getElem?_range (by
        by_contra hlt
        rw [List.getElem?_eq_none (by simpa using hlt)] at hi
        simp at hi)] at hi
      exact (Option.some.inj hi).symm
    subst hj
    simp only [hi, Option.map_some'] at h
    split_ifs at h with hm
    · exact ⟨(Option.some.inj (Option.some.inj h)).symm, hm⟩
    · simp at h

/-- C8: the scan of lines 253-266 leaves the rule vector at the first candidate that fails
the budget test (`else break`), although the comment of lines 249-250 announces the latest
hyphenation that will still fit. In `"abcdef"` with marker `"-"` and `columnLimit = 3`, the
candidate at byte 1 (pre-replacement `"xx"`, context requirement 2) fails the test
(`0 + 1 + 2 + 1 > 3`) and the ordinary candidate at byte 2, the last of the word, passes it
(`0 + 2 + 0 + 1 ≤ 3`); the code never looks at it and returns `("axx-", "bcdef")`, a line
of four code points, through the fallback to the earliest candidate, not `("ab-", "cdef")`.
The same with `columnLimit = 5` and a candidate at byte 1 that needs five positions of
context: `("ax-", "bcdef")`, not `("ab-", "cdef")`. -/
theorem latest_fit_early_break :
    isValid wordAbcdef = true
      ∧ (∀ c ∈ codePoints wordAbcdef, latinClass.isSpace c = false)
      ∧ advance wordAbcdef 3 0 = .ok 3
      ∧ dictWide wordAbcdef
          = [none, some ruleWide, some HyphenationRule.ordinary, none, none, none]
      ∧ ¬ (0 + 1 + ruleWide.need + dash.length ≤ 3)
      ∧ 0 + 2 + HyphenationRule.ordinary.need + dash.length ≤ 3
      ∧ scanRules dash 0 3 (dictWide wordAbcdef) 0 (-1) (-1) = (-1, 1)
      ∧ hyphenate_atTraced latinClass dictWide wordAbcdef dash 3
          = .ok (Branch.earliest, [97, 120, 120, 45], [98, 99, 100, 101, 102])
      ∧ hyphenate_at latinClass dictWide wordAbcdef dash 3
          = .ok ([97, 120, 120, 45], [98, 99, 100, 101, 102])
      ∧ hyphenate_at latinClass dictWide wordAbcdef dash 3
          ≠ .ok (wordAbcdef.take 2 ++ HyphenationRule.ordinary.pre ++ dash,
              HyphenationRule.ordinary.post
                ++ wordAbcdef.drop (2 + HyphenationRule.ordinary.skip))
      ∧ advance wordAbcdef 5 0 = .ok 5
      ∧ dictMixed wordAbcdef
          = [none, some ruleLook, some HyphenationRule.ordinary, none, none, none]
      ∧ ¬ (0 + 1 + ruleLook.need + dash.length ≤ 5)
      ∧ 0 + 2 + HyphenationRule.ordinary.need + dash.length ≤ 5
      ∧ scanRules dash 0 5 (dictMixed wordAbcdef) 0 (-1) (-1) = (-1, 1)
      ∧ hyphenate_at latinClass dictMixed wordAbcdef dash 5
          = .ok ([97, 120, 45], [98, 99, 100, 101, 102])
      ∧ hyphenate_at latinClass dictMixed wordAbcdef dash 5
          ≠ .ok (wordAbcdef.take 2 ++ HyphenationRule.ordinary.pre ++ dash,
              HyphenationRule.ordinary.post
                ++ wordAbcdef.drop (2 + HyphenationRule.ordinary.skip)) := by
  and_intros <;> decide

/-! ### The sentinel of `hyphenate` -/

/-- C17 fails on a target whose `size_t` has 64 bits: the `unsigned int` `word_start` holds
`2^32 - 1` on entry and again after `word_start = string::npos`, and the test
`word_start == string::npos` against the 64-bit constant is false both times although no
alphabetic run is open. So `hyphenate("", "-")` ends in `std::out_of_range` instead of
returning `""`, and so does the text `" ,"` without alphabetic code point. With a `size_t`
of 32 bits the test is true in both places and both texts are returned unchanged. -/
theorem hyphenate_sentinel_lp64 :
    (2 ^ 32 - 1 == npos 64) = false ∧ (toUInt (npos 64) == npos 64) = false
      ∧ isValid [] = true
      ∧ hyphenate 64 latinClass dictNone [] dash = .error .out_of_range
      ∧ isValid textBlankComma = true
      ∧ (∀ c ∈ codePoints textBlankComma, latinClass.isAlpha c = false)
      ∧ hyphenate 64 latinClass dictNone textBlankComma dash = .error .out_of_range
      ∧ (2 ^ 32 - 1 == npos 32) = true ∧ (toUInt (npos 32) == npos 32) = true
      ∧ hyphenate 32 latinClass dictNone [] dash = .ok []
      ∧ hyphenate 32 latinClass dictNone textBlankComma dash = .ok textBlankComma := by
  refine ⟨by decide, by decide, by decide, by decide, by decide, by decide, by decide,
    by decide, by decide, by decide, by decide⟩

/-! ### Slices and code-point boundaries -/

/-- C12 fails on the code in three of the four branches, each time through the byte
arithmetic `… - src.c_str() + 1` that takes one byte of the code point the cursor stands on.
Whitespace at the limit (line 194): `"é b"`, `columnLimit = 1` gives `firstLine` = the lone
lead byte `0xC3`. Whitespace before the word (line 310): `"é bbbb"`, `columnLimit = 3` gives
the same `firstLine`. First block (line 296): `"aaaa"`, no-break space, `"bb"` with
`columnLimit = 2` gives `"aaaa"` followed by the lead byte `0xC2` of the no-break space.
Neither `firstLine` is valid UTF-8. -/
theorem slices_cut_code_points :
    isValid textEB = true ∧ isValid dash = true ∧ 1 < (codePoints textEB).length
      ∧ hyphenate_atTraced latinClass dictNone textEB dash 1
          = .ok (Branch.space, [195], [98])
      ∧ isValid textEBbbb = true ∧ 3 < (codePoints textEBbbb).length
      ∧ hyphenate_atTraced latinClass dictNone textEBbbb dash 3
          = .ok (Branch.spaceBefore, [195], [98, 98, 98, 98])
      ∧ isValid [195] = false
      ∧ isValid textAaaaNbspBb = true ∧ 2 < (codePoints textAaaaNbspBb).length
      ∧ codePoints textAaaaNbspBb = [97, 97, 97, 97, 0xA0, 98, 98]
      ∧ latinClass.isSpace 0xA0 = true
      ∧ hyphenate_atTraced latinClass dictNone textAaaaNbspBb dash 2
          = .ok (Branch.block, [97, 97, 97, 97, 194], [98, 98])
      ∧ isValid [97, 97, 97, 97, 194] = false := by
  and_intros <;> decide

/-! ### Termination -/

theorem bind_ne_diverged {α β : Type} {x : Except Failure α} {f : α → Except Failure β}
    (hx : x ≠ .error .diverged) (hf : ∀ a, x = .ok a → f a ≠ .error .diverged) :
    (x >>= f) ≠ .error .diverged := by
  cases x with
  | error e =>
    intro h
    apply hx
    simpa using h
  | ok a => exact hf a rfl

theorem rd_ne_diverged (src : List Nat) (p : Nat) : rd src p ≠ .error .diverged := by
  unfold rd
  split <;> simp

theorem get_ne_diverged (src : List Nat) (p : Nat) : get src p ≠ .error .diverged := by
  unfold get
  split <;> simp

theorem get_ok_le {src : List Nat} {p c : Nat} (h : get src p = .ok c) : p ≤ src.length := by
  unfold get at h
  split at h
  · assumption
  · simp at h

theorem seqLen_pos (b : Nat) : 0 < seqLen b := by
  unfold seqLen
  split_ifs <;> omega

theorem next_ne_diverged (src : List Nat) (p : Nat) : next src p ≠ .error .diverged := by
  unfold next
  exact bind_ne_diverged (rd_ne_diverged src p) (fun a _ => by simp [pure, Except.pure])

theorem next_gt {src : List Nat} {p q : Nat} (h : next src p = .ok q) : p < q := by
  unfold next at h
  obtain ⟨b, _, hb⟩ := bind_eq_ok.1 h
  have := seqLen_pos b
  simp [pure, Except.pure] at hb
  omega

theorem prior_ne_diverged (src : List Nat) : ∀ p, prior src p ≠ .error .diverged := by
  intro p
  induction p with
  | zero => simp [prior]
  | succ n ih =>
    rw [prior]
    refine bind_ne_diverged (rd_ne_diverged src n) (fun b _ => ?_)
    split_ifs
    · exact ih
    · simp [pure, Except.pure]

theorem substr_ne_diverged (s : List Nat) (p c : Nat) : substr s p c ≠ .error .diverged := by
  unfold substr
  split <;> simp

theorem substrFrom_ne_diverged (s : List Nat) (p : Nat) :
    substrFrom s p ≠ .error .diverged := by
  unfold substrFrom
  split <;> simp

theorem cstr_ne_diverged (s : List Nat) (p : Nat) : cstr s p ≠ .error .diverged := by
  unfold cstr
  split <;> simp

theorem pure_ne_diverged {α : Type} (a : α) :
    (pure a : Except Failure α) ≠ .error .diverged := by
  simp [pure, Except.pure]

theorem ite_ne_diverged {α : Type} {c : Prop} [Decidable c] {a b : Except Failure α}
    (ha : a ≠ .error .diverged) (hb : b ≠ .error .diverged) :
    (if c then a else b) ≠ .error .diverged := by
  split_ifs <;> assumption

theorem advance_ne_diverged (src : List Nat) :
    ∀ n cur, advance src n cur ≠ .error .diverged := by
  intro n
  induction n with
  | zero => intro cur; simp [advance]
  | succ n ih =>
    intro cur
    rw [advance]
    exact bind_ne_diverged (next_ne_diverged src cur) (fun c _ => ih c)

theorem backSpaces_fuel (u : CharClass) (src : List Nat) :
    ∀ n p, 1 ≤ n → (p ≤ src.length → p < n) → backSpaces u src n p ≠ .error .diverged := by
  intro n
  induction n with
  | zero => intro p h; omega
  | succ n ih =>
    intro p _ hp
    rw [backSpaces]
    refine bind_ne_diverged (get_ne_diverged src p) (fun c hc => ?_)
    have hle := get_ok_le hc
    split_ifs
    · refine bind_ne_diverged (prior_ne_diverged src p) (fun q hq => ?_)
      have hlt := prior_lt src p q hq
      have := hp hle
      exact ih q (by omega) (fun _ => by omega)
    · exact pure_ne_diverged p

theorem fwdSpaces_fuel (u : CharClass) (src : List Nat) :
    ∀ n p, 1 ≤ n → src.length + 2 ≤ n + p → fwdSpaces u src n p ≠ .error .diverged := by
  intro n
  induction n with
  | zero => intro p h; omega
  | succ n ih =>
    intro p _ hp
    rw [fwdSpaces]
    refine bind_ne_diverged (get_ne_diverged src p) (fun c hc => ?_)
    have hle := get_ok_le hc
    split_ifs
    · refine bind_ne_diverged (next_ne_diverged src p) (fun q hq => ?_)
      have hlt := next_gt hq
      exact ih q (by omega) (by omega)
    · exact pure_ne_diverged p

theorem wordEnd_fuel (u : CharClass) (src : List Nat) :
    ∀ n p, 1 ≤ n → src.length + 2 ≤ n + p → wordEnd u src n p ≠ .error .diverged := by
  intro n
  induction n with
  | zero => intro p h; omega
  | succ n ih =>
    intro p _ hp
    rw [wordEnd]
    refine bind_ne_diverged (get_ne_diverged src p) (fun c hc => ?_)
    have hle := get_ok_le hc
    split_ifs
    · refine bind_ne_diverged (next_ne_diverged src p) (fun q hq => ?_)
      have hlt := next_gt hq
      exact ih q (by omega) (by omega)
    · exact pure_ne_diverged p

theorem haveSpace_fuel (u : CharClass) (src : List Nat) (ws : Nat) :
    ∀ n i, 1 ≤ n → src.length + 2 ≤ n + i → haveSpace u src ws n i ≠ .error .diverged := by
  intro n
  induction n with
  | zero => intro p h; omega
  | succ n ih =>
    intro p _ hp
    rw [haveSpace]
    split_ifs
    · refine bind_ne_diverged (get_ne_diverged src p) (fun c hc => ?_)
      have hle := get_ok_le hc
      split_ifs
      · exact pure_ne_diverged true
      · refine bind_ne_diverged (next_ne_diverged src p) (fun q hq => ?_)
        have hlt := next_gt hq
        exact ih q (by omega) (by omega)
    · exact pure_ne_diverged false

theorem rd_ok_le {src : List Nat} {p b : Nat} (h : rd src p = .ok b) : p ≤ src.length := by
  unfold rd at h
  split at h
  · rename_i b' hb
    have := (List.getElem?_eq_some_iff.1 hb).1
    simp [cbuf] at this
    omega
  · simp at h

theorem blockScan_fuel (u : CharClass) (src : List Nat) (sp : Bool) :
    ∀ n p, 1 ≤ n → src.length + 2 ≤ n + p → blockScan u src sp n p ≠ .error .diverged := by
  intro n
  induction n with
  | zero => intro p h; omega
  | succ n ih =>
    intro p _ hp
    rw [blockScan]
    refine bind_ne_diverged (rd_ne_diverged src p) (fun b hb => ?_)
    have hle := rd_ok_le hb
    split_ifs
    · refine bind_ne_diverged (get_ne_diverged src p) (fun c _ => ?_)
      split_ifs
      · refine bind_ne_diverged (next_ne_diverged src p) (fun q hq => ?_)
        have hlt := next_gt hq
        exact ih q (by omega) (by omega)
      · exact pure_ne_diverged p
    · exact pure_ne_diverged p

/-- One round of the backward scan never moves the cursor forward, and moves it back when
it does not already stand at the start. -/
theorem findWordStart_le (u : CharClass) (src : List Nat) :
    ∀ (n cur : Nat) (in_word : Bool) (ws : Option Nat) (found : Nat × Option Nat),
      findWordStart u src n cur in_word ws = .ok found →
      found.1 ≤ cur ∧ (0 < cur → found.1 < cur) := by
  intro n
  induction n with
  | zero => intro cur iw ws found h; simp [findWordStart] at h
  | succ n ih =>
    intro cur iw ws found h
    rw [findWordStart] at h
    split_ifs at h with hc
    · obtain ⟨cur1, h1, h⟩ := bind_eq_ok.1 h
      obtain ⟨ch, _, h⟩ := bind_eq_ok.1 h
      have hlt := prior_lt src cur cur1 h1
      by_cases c1 : (iw && !u.isAlpha ch) = true
      · rw [if_pos c1] at h
        obtain ⟨w, _, h⟩ := bind_eq_ok.1 h
        simp only [pure, Except.pure, Except.ok.injEq] at h
        subst h
        exact ⟨by simp; omega, fun _ => hlt⟩
      · rw [if_neg c1] at h
        by_cases c2 : u.isSpace ch = true
        · rw [if_pos c2] at h
          simp only [pure, Except.pure, Except.ok.injEq] at h
          subst h
          exact ⟨by simp; omega, fun _ => hlt⟩
        · rw [if_neg c2] at h
          have := (ih _ _ _ _ h).1
          exact ⟨by omega, fun _ => by omega⟩
    · simp only [pure, Except.pure, Except.ok.injEq] at h
      subst h
      exact ⟨le_refl _, fun h0 => absurd h0 hc⟩

theorem findWordStart_fuel (u : CharClass) (src : List Nat) :
    ∀ (n cur : Nat) (in_word : Bool) (ws : Option Nat), cur < n →
      findWordStart u src n cur in_word ws ≠ .error .diverged := by
  intro n
  induction n with
  | zero => intro cur iw ws h; omega
  | succ n ih =>
    intro cur iw ws hlt
    rw [findWordStart]
    split_ifs
    · refine bind_ne_diverged (prior_ne_diverged src cur) (fun cur1 h1 => ?_)
      have := prior_lt src cur cur1 h1
      refine bind_ne_diverged (get_ne_diverged src cur1) (fun ch _ => ?_)
      refine ite_ne_diverged ?_ (ite_ne_diverged ?_ ?_)
      · exact bind_ne_diverged (next_ne_diverged src cur1) (fun w _ => pure_ne_diverged _)
      · exact pure_ne_diverged _
      · exact ih _ _ _ (by omega)
    · exact pure_ne_diverged _

theorem applyBest_ne_diverged (src hyphen : List Nat) (rules : Rules) (ws i : Nat) :
    applyBest src hyphen rules ws i ≠ .error .diverged := by
  unfold applyBest
  split
  · refine bind_ne_diverged (substr_ne_diverged _ _ _) (fun hd _ => ?_)
    exact bind_ne_diverged (cstr_ne_diverged _ _) (fun r _ => pure_ne_diverged _)
  · simp

theorem tryWord_ne_diverged (u : CharClass) (dict : Dictionary) (src hyphen : List Nat)
    (border ws : Nat) : tryWord u dict src hyphen border ws ≠ .error .diverged := by
  unfold tryWord
  refine bind_ne_diverged (wordEnd_fuel u src _ _ (by omega) (by omega)) (fun we _ => ?_)
  refine bind_ne_diverged (haveSpace_fuel u src _ _ _ (by omega) (by omega)) (fun hs _ => ?_)
  dsimp only
  refine ite_ne_diverged ?_ ?_
  · exact bind_ne_diverged (applyBest_ne_diverged _ _ _ _ _) (fun r _ => pure_ne_diverged _)
  · exact pure_ne_diverged _

theorem tryWordAt_ne_diverged (u : CharClass) (dict : Dictionary) (src hyphen : List Nat)
    (border : Nat) (ws : Option Nat) :
    tryWordAt u dict src hyphen border ws ≠ .error .diverged := by
  cases ws with
  | none => simp [tryWordAt]
  | some w => exact tryWord_ne_diverged u dict src hyphen border w

theorem firstBlock_ne_diverged (u : CharClass) (src : List Nat) (cur : Nat) :
    firstBlock u src cur ≠ .error .diverged := by
  unfold firstBlock
  refine bind_ne_diverged (blockScan_fuel u src _ _ _ (by omega) (by omega)) (fun eol _ => ?_)
  refine bind_ne_diverged (substr_ne_diverged _ _ _) (fun first _ => ?_)
  refine bind_ne_diverged (blockScan_fuel u src _ _ _ (by omega) (by omega)) (fun bol _ => ?_)
  exact bind_ne_diverged (cstr_ne_diverged _ _) (fun second _ => pure_ne_diverged _)

theorem spaceBefore_ne_diverged (u : CharClass) (src : List Nat) (cur : Nat) :
    spaceBefore u src cur ≠ .error .diverged := by
  unfold spaceBefore
  refine bind_ne_diverged (backSpaces_fuel u src _ _ (by omega) (fun _ => by omega))
    (fun eol _ => ?_)
  refine bind_ne_diverged (fwdSpaces_fuel u src _ _ (by omega) (by omega)) (fun bol _ => ?_)
  refine bind_ne_diverged (substr_ne_diverged _ _ _) (fun first _ => ?_)
  exact bind_ne_diverged (cstr_ne_diverged _ _) (fun second _ => pure_ne_diverged _)

theorem spaceBreak_ne_diverged (u : CharClass) (src : List Nat) (cur nxt : Nat) :
    spaceBreak u src cur nxt ≠ .error .diverged := by
  unfold spaceBreak
  refine bind_ne_diverged (backSpaces_fuel u src _ _ (by omega) (fun _ => by omega))
    (fun eol _ => ?_)
  refine bind_ne_diverged (substr_ne_diverged _ _ _) (fun first _ => ?_)
  refine bind_ne_diverged (fwdSpaces_fuel u src _ _ (by omega) (by omega)) (fun bol _ => ?_)
  exact bind_ne_diverged (substrFrom_ne_diverged _ _) (fun second _ => pure_ne_diverged _)

theorem breakLoop_fuel (u : CharClass) (dict : Dictionary) (src hyphen : List Nat)
    (border : Nat) :
    ∀ n cur, cur < n → breakLoop u dict src hyphen border n cur ≠ .error .diverged := by
  intro n
  induction n with
  | zero => intro cur h; omega
  | succ n ih =>
    intro cur hlt
    rw [breakLoop]
    refine bind_ne_diverged (get_ne_diverged src cur) (fun c hc => ?_)
    have hle := get_ok_le hc
    refine bind_ne_diverged (findWordStart_fuel u src _ _ _ _ (by omega)) (fun found hf => ?_)
    have hmove := findWordStart_le u src _ _ _ _ _ hf
    refine bind_ne_diverged (tryWordAt_ne_diverged _ _ _ _ _ _) (fun hyph _ => ?_)
    cases hyph with
    | some r => exact pure_ne_diverged r
    | none =>
      simp only
      split_ifs with h0
      · exact firstBlock_ne_diverged u src _
      · refine bind_ne_diverged (get_ne_diverged src _) (fun d _ => ?_)
        split_ifs
        · exact spaceBefore_ne_diverged u src _
        · have h1 : found.1 ≠ 0 := by simpa using h0
          have := hmove.2 (by omega)
          exact ih _ (by omega)

theorem peekNext_ok_le {u : CharClass} {src : List Nat} {cur nxt : Nat}
    (h : peekNext u src cur = .ok nxt) : cur ≤ src.length := by
  unfold peekNext at h
  obtain ⟨c, hc, _⟩ := bind_eq_ok.1 h
  exact get_ok_le hc

theorem peekNext_ne_diverged (u : CharClass) (src : List Nat) (cur : Nat) :
    peekNext u src cur ≠ .error .diverged := by
  unfold peekNext
  refine bind_ne_diverged (get_ne_diverged src cur) (fun c _ => ?_)
  split_ifs
  · exact next_ne_diverged _ _
  · exact pure_ne_diverged _

/-- The loop budgets of the embedding are never the reason a run ends: for every text,
marker, dictionary, classification and `columnLimit` the call ends with a pair or with one
of the failures of the code (invalid text, a read outside the array), never with
`Failure.diverged`. -/
theorem hyphenate_atTraced_fuel (u : CharClass) (dict : Dictionary) (text marker : List Nat)
    (len : Nat) :
    hyphenate_atTraced u dict text marker len ≠ .error .diverged := by
  unfold hyphenate_atTraced
  split_ifs
  · simp
  · refine bind_ne_diverged (advance_ne_diverged _ _ _) (fun cur _ => ?_)
    refine bind_ne_diverged (peekNext_ne_diverged _ _ _) (fun nxt hn => ?_)
    have := peekNext_ok_le hn
    refine bind_ne_diverged (get_ne_diverged _ _) (fun d _ => ?_)
    split_ifs
    · exact spaceBreak_ne_diverged _ _ _ _
    · exact breakLoop_fuel u dict text marker cur _ _ (by omega)

/-- C15: on valid text that begins with whitespace the backward loops over whitespace do
not stop inside the text. For `" a"` with `columnLimit = 0` the loop of lines 192-193 stands
on the blank at offset 0 and takes `prior` from there; for `"  bbbb"` with
`columnLimit = 4` and no candidate the loop of lines 305-306 is entered at offset 1 and
does the same. Neither loop has the test `cur > src.c_str()` of line 211, so the cursor
leaves the character array and the text no longer bounds the number of rounds. -/
theorem hyphenate_at_leaves_text :
    isValid [32, 97] = true ∧ 0 < (codePoints [32, 97]).length
      ∧ advance [32, 97] 0 0 = .ok 0
      ∧ get [32, 97] 0 = .ok 32 ∧ latinClass.isSpace 32 = true
      ∧ prior [32, 97] 0 = .error .undefined
      ∧ spaceBreak latinClass [32, 97] 0 0 = .error .undefined
      ∧ hyphenate_at latinClass dictNone [32, 97] dash 0 = .error .undefined
      ∧ isValid [32, 32, 98, 98, 98, 98] = true
      ∧ 4 < (codePoints [32, 32, 98, 98, 98, 98]).length
      ∧ advance [32, 32, 98, 98, 98, 98] 4 0 = .ok 4
      ∧ findWordStart latinClass [32, 32, 98, 98, 98, 98] 8 4 true none = .ok (1, some 2)
      ∧ tryWord latinClass dictNone [32, 32, 98, 98, 98, 98] dash 4 2 = .ok none
      ∧ prior [32, 32, 98, 98, 98, 98] 0 = .error .undefined
      ∧ spaceBefore latinClass [32, 32, 98, 98, 98, 98] 1 = .error .undefined
      ∧ hyphenate_at latinClass dictNone [32, 32, 98, 98, 98, 98] dash 4
          = .error .undefined := by
  and_intros <;> decide

/-! ### Cursors by code-point index -/

theorem off_zero (cs : List (List Nat)) : off cs 0 = 0 := by simp [off]

theorem off_succ (cs : List (List Nat)) (k : Nat) (hk : k < cs.length) :
    off cs (k + 1) = off cs k + cs[k].length := by
  simp only [off]
  rw [List.take_succ, List.getElem?_eq_getElem hk]
  simp only [Option.toList, List.flatten_append, List.length_append, List.flatten_cons,
    List.flatten_nil, List.append_nil]

theorem off_of_le (cs : List (List Nat)) (k : Nat) (hk : cs.length ≤ k) :
    off cs k = cs.flatten.length := by
  simp only [off]
  rw [List.take_of_length_le hk]

theorem off_mono (cs : List (List Nat)) {j k : Nat} (h : j ≤ k) : off cs j ≤ off cs k := by
  induction k with
  | zero =>
    have : j = 0 := by omega
    subst this
    exact le_refl _
  | succ k ih =>
    by_cases hj : j = k + 1
    · subst hj; exact le_refl _
    · have h1 := ih (by omega)
      by_cases hk : k < cs.length
      · rw [off_succ cs k hk]; omega
      · rw [off_of_le cs (k + 1) (by omega)]
        rw [off_of_le cs k (by omega)] at h1
        exact h1

theorem off_le_length (cs : List (List Nat)) (k : Nat) : off cs k ≤ cs.flatten.length := by
  have := off_mono cs (Nat.le_max_left k cs.length)
  rw [off_of_le cs _ (Nat.le_max_right k cs.length)] at this
  exact this

theorem off_lt_succ {cs : List (List Nat)} (hch : Chunks cs) {k : Nat} (hk : k < cs.length) :
    off cs k < off cs (k + 1) := by
  rw [off_succ cs k hk]
  have := (hch cs[k] (List.getElem_mem hk)).length_pos
  omega

theorem off_strict {cs : List (List Nat)} (hch : Chunks cs) {j k : Nat} (h : j < k)
    (hk : k ≤ cs.length) : off cs j < off cs k := by
  have h1 := off_lt_succ hch (show j < cs.length by omega)
  have h2 := off_mono cs (show j + 1 ≤ k by omega)
  omega

theorem off_eq_zero {cs : List (List Nat)} (hch : Chunks cs) {k : Nat} (hk : k ≤ cs.length)
    (h : off cs k = 0) : k = 0 := by
  by_contra h0
  have := off_strict hch (show 0 < k by omega) hk
  rw [off_zero] at this
  omega

theorem flatten_split (cs : List (List Nat)) (k : Nat) (hk : k < cs.length) :
    cs.flatten = (cs.take k).flatten ++ (cs[k] ++ (cs.drop (k + 1)).flatten) := by
  have e : cs.take k ++ cs[k] :: cs.drop (k + 1) = cs := by
    rw [← List.drop_eq_getElem_cons hk]
    exact List.take_append_drop k cs
  have := congrArg List.flatten e
  rw [List.flatten_append, List.flatten_cons] at this
  exact this.symm

theorem cpAt_lt (cs : List (List Nat)) (k : Nat) (hk : k < cs.length) :
    cpAt cs k = decode cs[k] := by
  simp [cpAt, List.getElem?_eq_getElem hk]

theorem cpAt_end (cs : List (List Nat)) (k : Nat) (hk : cs.length ≤ k) : cpAt cs k = 0 := by
  simp [cpAt, List.getElem?_eq_none hk]

theorem get_off {cs : List (List Nat)} (hch : Chunks cs) (k : Nat) (hk : k ≤ cs.length) :
    get cs.flatten (off cs k) = .ok (cpAt cs k) := by
  by_cases hlt : k < cs.length
  · rw [cpAt_lt cs k hlt]
    have h := get_append (cs.take k).flatten cs[k] (cs.drop (k + 1)).flatten
      (hch _ (List.getElem_mem hlt))
    rw [← flatten_split cs k hlt] at h
    exact h
  · rw [cpAt_end cs k (by omega), off_of_le cs k (by omega)]
    exact get_end _

theorem next_off {cs : List (List Nat)} (hch : Chunks cs) (k : Nat) (hk : k < cs.length) :
    next cs.flatten (off cs k) = .ok (off cs (k + 1)) := by
  have h := next_append (cs.take k).flatten cs[k] (cs.drop (k + 1)).flatten
    (hch _ (List.getElem_mem hk))
  rw [← flatten_split cs k hk] at h
  rw [off_succ cs k hk]
  exact h

theorem prior_off {cs : List (List Nat)} (hch : Chunks cs) (k : Nat) (hk : k < cs.length) :
    prior cs.flatten (off cs (k + 1)) = .ok (off cs k) := by
  have h := prior_append (cs.take k).flatten cs[k] (cs.drop (k + 1)).flatten
    (hch _ (List.getElem_mem hk))
  rw [← flatten_split cs k hk] at h
  rw [off_succ cs k hk]
  exact h

theorem rd_off {cs : List (List Nat)} (hch : Chunks cs) (k : Nat) (hk : k ≤ cs.length) :
    ∃ b, rd cs.flatten (off cs k) = .ok b := by
  by_cases hlt : k < cs.length
  · have := off_strict hch (show k < cs.length by omega) (le_refl _)
    rw [off_of_le cs cs.length (le_refl _)] at this
    exact rd_lt _ _ this
  · rw [off_of_le cs k (by omega)]
    exact ⟨0, rd_end _⟩

/-! ### The search stays inside the text -/

theorem backSpaces_off (u : CharClass) {cs : List (List Nat)} (hch : Chunks cs)
    (h0 : u.isSpace (cpAt cs 0) = false) :
    ∀ (n k : Nat), k ≤ cs.length → k < n →
      ∃ j, j ≤ k ∧ backSpaces u cs.flatten n (off cs k) = .ok (off cs j)
        ∧ u.isSpace (cpAt cs j) = false := by
  intro n
  induction n with
  | zero => intro k _ h; omega
  | succ n ih =>
    intro k hk hn
    rw [backSpaces]
    simp only [get_off hch k hk, bind_ok]
    by_cases hs : u.isSpace (cpAt cs k) = true
    · obtain ⟨k', rfl⟩ : ∃ k', k = k' + 1 := by
        cases k with
        | zero => rw [h0] at hs; exact absurd hs (by simp)
        | succ k' => exact ⟨k', rfl⟩
      simp only [hs, if_true, prior_off hch k' (by omega), bind_ok]
      obtain ⟨j, hj, hres, hsp⟩ := ih k' (by omega) (by omega)
      exact ⟨j, by omega, hres, hsp⟩
    · simp only [hs, if_false]
      exact ⟨k, le_refl _, rfl, by simpa using hs⟩

theorem fwdSpaces_off (u : CharClass) (hu0 : u.isSpace 0 = false) {cs : List (List Nat)}
    (hch : Chunks cs) :
    ∀ (n k : Nat), k ≤ cs.length → cs.length + 1 ≤ n + k →
      ∃ j, k ≤ j ∧ j ≤ cs.length ∧ fwdSpaces u cs.flatten n (off cs k) = .ok (off cs j)
        ∧ u.isSpace (cpAt cs j) = false := by
  intro n
  induction n with
  | zero => intro k _ h; omega
  | succ n ih =>
    intro k hk hn
    rw [fwdSpaces]
    simp only [get_off hch k hk, bind_ok]
    by_cases hs : u.isSpace (cpAt cs k) = true
    · have hlt : k < cs.length := by
        by_contra hge
        rw [cpAt_end cs k (by omega), hu0] at hs
        exact absurd hs (by simp)
      simp only [hs, if_true, next_off hch k hlt, bind_ok]
      obtain ⟨j, hj, hj2, hres, hsp⟩ := ih (k + 1) (by omega) (by omega)
      exact ⟨j, by omega, hj2, hres, hsp⟩
    · simp only [hs, if_false]
      exact ⟨k, le_refl _, hk, rfl, by simpa using hs⟩

theorem wordEnd_off (u : CharClass) (hu0 : u.isAlpha 0 = false) {cs : List (List Nat)}
    (hch : Chunks cs) :
    ∀ (n k : Nat), k ≤ cs.length → cs.length + 1 ≤ n + k →
      ∃ j, k ≤ j ∧ j ≤ cs.length ∧ wordEnd u cs.flatten n (off cs k) = .ok (off cs j)
        ∧ (∀ i, k ≤ i → i < j → u.isAlpha (cpAt cs i) = true) := by
  intro n
  induction n with
  | zero => intro k _ h; omega
  | succ n ih =>
    intro k hk hn
    rw [wordEnd]
    simp only [get_off hch k hk, bind_ok]
    by_cases hs : u.isAlpha (cpAt cs k) = true
    · have hlt : k < cs.length := by
        by_contra hge
        rw [cpAt_end cs k (by omega), hu0] at hs
        exact absurd hs (by simp)
      simp only [hs, if_true, next_off hch k hlt, bind_ok]
      obtain ⟨j, hj, hj2, hres, hal⟩ := ih (k + 1) (by omega) (by omega)
      refine ⟨j, by omega, hj2, hres, ?_⟩
      intro i hi1 hi2
      by_cases hik : i = k
      · subst hik; exact hs
      · exact hal i (by omega) hi2
    · simp only [hs, if_false]
      exact ⟨k, le_refl _, hk, rfl, fun i h1 h2 => by omega⟩

theorem rd_off_head {cs : List (List Nat)} (hch : Chunks cs) (k : Nat) (hk : k < cs.length) :
    ∃ b t, cs[k] = b :: t ∧ rd cs.flatten (off cs k) = .ok b := by
  obtain ⟨b0, t, hc, _⟩ := (hch _ (List.getElem_mem hk)).facts
  refine ⟨b0, t, hc, ?_⟩
  have h := rd_append (cs.take k).flatten (t ++ (cs.drop (k + 1)).flatten) b0
  have e := flatten_split cs k hk
  rw [hc, List.cons_append] at e
  rw [← e] at h
  exact h

theorem blockScan_off (u : CharClass) (sp : Bool) {cs : List (List Nat)} (hch : Chunks cs) :
    ∀ (n k : Nat), k ≤ cs.length → cs.length + 1 ≤ n + k →
      ∃ j, k ≤ j ∧ j ≤ cs.length ∧ blockScan u cs.flatten sp n (off cs k) = .ok (off cs j)
        ∧ (cpAt cs j = 0 ∨ (u.isSpace (cpAt cs j) == sp) = false) := by
  intro n
  induction n with
  | zero => intro k _ h; omega
  | succ n ih =>
    intro k hk hn
    rw [blockScan]
    by_cases hlt : k < cs.length
    · obtain ⟨b, t, hc, hb⟩ := rd_off_head hch k hlt
      simp only [hb, bind_ok, get_off hch k hk]
      by_cases hb0 : (b != 0) = true
      · simp only [hb0, if_true]
        by_cases hs : (u.isSpace (cpAt cs k) == sp) = true
        · simp only [hs, if_true, next_off hch k hlt, bind_ok]
          obtain ⟨j, hj, hj2, hres, hpost⟩ := ih (k + 1) (by omega) (by omega)
          exact ⟨j, by omega, hj2, hres, hpost⟩
        · simp only [hs, if_false]
          exact ⟨k, le_refl _, hk, rfl, Or.inr (by simpa using hs)⟩
      · simp only [hb0, if_false]
        refine ⟨k, le_refl _, hk, rfl, Or.inl ?_⟩
        have hb' : b = 0 := by simpa using hb0
        obtain ⟨b0, t0, hc0, _, _, _, _, _, hz, _⟩ := (hch _ (List.getElem_mem hlt)).facts
        rw [hc] at hc0
        have : b0 = b := by
          have := congrArg List.head? hc0
          simpa using this.symm
        rw [cpAt_lt cs k hlt, hz (by omega)]
        rfl
    · have hk' : k = cs.length := by omega
      subst hk'
      rw [off_of_le cs _ (le_refl _), rd_end]
      simp only [bind_ok]
      exact ⟨cs.length, le_refl _, le_refl _, by rw [off_of_le cs _ (le_refl _)]; rfl,
        Or.inl (cpAt_end cs _ (le_refl _))⟩

theorem findWordStart_off (u : CharClass) {cs : List (List Nat)} (hch : Chunks cs) :
    ∀ (n k : Nat) (in_word : Bool) (w0 : Option Nat), k ≤ cs.length → k < n →
      ∃ j w, j ≤ k ∧ (0 < k → j < k)
        ∧ findWordStart u cs.flatten n (off cs k) in_word w0 = .ok (off cs j, w)
        ∧ (w = w0 ∨ ∃ m, m ≤ k ∧ w = some (off cs m)) := by
  intro n
  induction n with
  | zero => intro k _ _ _ h; omega
  | succ n ih =>
    intro k iw w0 hk hn
    rw [findWordStart]
    cases k with
    | zero =>
      rw [off_zero]
      exact ⟨0, w0, le_refl _, fun h => by omega, by simp [off_zero], Or.inl rfl⟩
    | succ k' =>
      have hpos : off cs (k' + 1) > 0 := by
        have := off_strict hch (show 0 < k' + 1 by omega) hk
        rw [off_zero] at this
        exact this
      rw [if_pos hpos]
      simp only [prior_off hch k' (by omega), bind_ok, get_off hch k' (by omega)]
      by_cases c1 : (iw && !u.isAlpha (cpAt cs k')) = true
      · rw [if_pos c1]
        simp only [next_off hch k' (by omega), bind_ok, pure_ok]
        exact ⟨k', _, by omega, fun _ => by omega, rfl, Or.inr ⟨k' + 1, le_refl _, rfl⟩⟩
      · rw [if_neg c1]
        by_cases c2 : u.isSpace (cpAt cs k') = true
        · rw [if_pos c2]
          exact ⟨k', w0, by omega, fun _ => by omega, rfl, Or.inl rfl⟩
        · rw [if_neg c2]
          obtain ⟨j, w, hj, _, hres, hw⟩ := ih k'
            (if (!iw && u.isAlpha (cpAt cs k')) = true then true else iw)
            (if (off cs k' == 0 && (if (!iw && u.isAlpha (cpAt cs k')) = true then true else iw))
              = true then some (off cs k') else w0) (by omega) (by omega)
          refine ⟨j, w, by omega, fun _ => by omega, hres, ?_⟩
          rcases hw with hw | ⟨m, hm, hw⟩
          · by_cases c3 : (off cs k' == 0
                && (if (!iw && u.isAlpha (cpAt cs k')) = true then true else iw)) = true
            · rw [if_pos c3] at hw
              exact Or.inr ⟨k', by omega, hw⟩
            · rw [if_neg c3] at hw
              exact Or.inl hw
          · exact Or.inr ⟨m, by omega, hw⟩

theorem advance_off {cs : List (List Nat)} (hch : Chunks cs) :
    ∀ (n k : Nat), k + n ≤ cs.length →
      advance cs.flatten n (off cs k) = .ok (off cs (k + n)) := by
  intro n
  induction n with
  | zero => intro k _; simp [advance]
  | succ n ih =>
    intro k hk
    rw [advance]
    simp only [next_off hch k (by omega), bind_ok]
    rw [ih (k + 1) (by omega)]
    congr 2
    omega


theorem scanRules_earliest (full : Rules) (hyphen : List Nat) (ws border : Nat) :
    ∀ (rest : Rules) (i : Nat) (latest earliest : Int), rest = full.drop i →
      (earliest = -1 ∨ ∃ (e : Nat) (r : HyphenationRule), earliest = e
        ∧ full[e]? = some (some r)) →
      ((scanRules hyphen ws border rest i latest earliest).2 = -1
        ∨ ∃ (e : Nat) (r : HyphenationRule),
            (scanRules hyphen ws border rest i latest earliest).2 = e
            ∧ full[e]? = some (some r)) := by
  intro rest
  induction rest with
  | nil => intro i latest earliest _ h; simpa [scanRules] using h
  | cons x rest ih =>
    intro i latest earliest hdrop h
    have hi : full[i]? = some x := by
      have := congrArg (fun l => l[0]?) hdrop
      simpa [List.getElem?_drop] using this.symm
    have hrest : rest = full.drop (i + 1) := by
      have := congrArg List.tail hdrop
      simpa [List.drop_drop, Nat.add_comm] using this
    cases x with
    | none =>
      rw [scanRules]
      exact ih (i + 1) latest earliest hrest h
    | some r =>
      rw [scanRules]
      have h1 : ((if earliest == -1 then (i : Int) else earliest) = -1
          ∨ ∃ (e : Nat) (r : HyphenationRule), (if earliest == -1 then (i : Int) else earliest) = e
            ∧ full[e]? = some (some r)) := by
        by_cases he : (earliest == -1) = true
        · rw [if_pos he]
          exact Or.inr ⟨i, r, rfl, hi⟩
        · rw [if_neg he]
          exact h
      by_cases hfit : ws + i + r.need + hyphen.length ≤ border
      · simp only [if_pos hfit]
        exact ih (i + 1) _ _ hrest h1
      · simp only [if_neg hfit]
        exact h1

theorem word_length (cs : List (List Nat)) (m m' : Nat) (hm : m ≤ m') :
    (((cbuf cs.flatten).drop (off cs m)).take (off cs m' - off cs m)).length
      = off cs m' - off cs m := by
  have h1 := off_le_length cs m'
  have h2 := off_mono cs hm
  simp only [List.length_take, List.length_drop, cbuf, List.length_append, List.length_singleton]
  omega

theorem tryWord_off (u : CharClass) (hu : u.Sound) (dict : Dictionary)
    (hlen : ∀ w, (dict w).length = w.length)
    (hskip : ∀ w i r, (dict w)[i]? = some (some r) → i + r.skip ≤ w.length)
    {cs : List (List Nat)} (hch : Chunks cs) (marker : List Nat) (border m : Nat)
    (hm : m ≤ cs.length) :
    ∃ res, tryWord u dict cs.flatten marker border (off cs m) = .ok res
      ∧ ∀ p, res = some p → Shape u dict cs marker p := by
  obtain ⟨m', hm1, hm2, hwe, halpha⟩ := wordEnd_off u hu.alpha_zero hch (cs.flatten.length + 2) m
    hm (by have := hch.length_le; omega)
  obtain ⟨hs, hhs⟩ := haveSpace_ok u cs.flatten (off cs m) (off_le_length cs m)
    (cs.flatten.length + 2) 0 (by have := off_le_length cs m; omega)
  have hwl := word_length cs m m' hm1
  unfold tryWord
  simp only [hwe, bind_ok, hhs]
  generalize hword : ((cbuf cs.flatten).drop (off cs m)).take (off cs m' - off cs m) = word
    at hwl
  generalize hfound : scanRules marker (off cs m) border (dict word) 0 (-1) (-1) = found
  have hfit := scanRules_fits (dict word) marker (off cs m) border (dict word) 0 (-1) (-1)
    (by simp) (Or.inl rfl)
  have hear := scanRules_earliest (dict word) marker (off cs m) border (dict word) 0 (-1) (-1)
    (by simp) (Or.inl rfl)
  rw [hfound] at hfit hear
  -- the index chosen carries a rule
  have hidx : ∀ (l : Int), (l = found.1 ∨ l = found.2) → l ≥ 0 →
      ∃ r, (dict word)[l.toNat]? = some (some r) := by
    intro l hl hl0
    rcases hl with rfl | rfl
    · rcases hfit with h | ⟨i, r, h1, h2, _⟩
      · omega
      · exact ⟨r, by rw [h1]; simpa using h2⟩
    · rcases hear with h | ⟨i, r, h1, h2⟩
      · omega
      · exact ⟨r, by rw [h1]; simpa using h2⟩
  generalize hlat : (if (found.1 == -1 && !hs) = true then found.2 else found.1) = latest
  have hlat' : latest = found.1 ∨ latest = found.2 := by
    rw [← hlat]
    split_ifs
    · exact Or.inr rfl
    · exact Or.inl rfl
  by_cases hl0 : latest ≥ 0
  · rw [if_pos hl0]
    obtain ⟨r, hr⟩ := hidx latest hlat' hl0
    have hi : latest.toNat < word.length := by
      have := (List.getElem?_eq_some_iff.1 hr).1
      rw [hlen] at this
      exact this
    have hsk := hskip word _ r hr
    have hend := off_le_length cs m'
    have hmm := off_mono cs hm1
    have hin : off cs m + latest.toNat + r.skip ≤ cs.flatten.length := by
      clear hfit hear hidx hlat hlat' hhs hwe hfound
      omega
    have hlt : off cs m + latest.toNat < off cs m' := by
      clear hfit hear hidx hlat hlat' hhs hwe hfound
      omega
    have hap := applyBest_at cs.flatten marker (dict word) (off cs m) latest.toNat r hr hin
    rw [takeWhile_cbuf _ _ hin] at hap
    simp only [hap, bind_ok, pure_ok]
    refine ⟨_, rfl, ?_⟩
    intro p hp
    have hp' := (Option.some.inj hp).symm
    have hshape : HyphShape u dict cs marker
        (cs.flatten.take (off cs m + latest.toNat) ++ r.pre ++ marker)
        (r.post ++ (cs.flatten.drop (off cs m + latest.toNat + r.skip)).takeWhile
          (fun b => b != 0)) :=
      ⟨m, m', latest.toNat, r, hm1, hm2, halpha, hlt, by rw [hword]; exact hr, rfl, rfl⟩
    subst hp'
    split_ifs
    · exact hshape
    · exact hshape
  · rw [if_neg hl0]
    exact ⟨none, rfl, fun p hp => by simp at hp⟩

theorem substr_zero (src : List Nat) (n : Nat) : substr src 0 n = .ok (src.take n) := by
  simp [substr]

theorem cstr_off (cs : List (List Nat)) (k : Nat) :
    cstr cs.flatten (off cs k)
      = .ok ((cs.flatten.drop (off cs k)).takeWhile (fun b => b != 0)) := by
  have h := off_le_length cs k
  simp only [cstr, h, if_true]
  rw [takeWhile_cbuf _ _ h]

theorem firstBlock_off (u : CharClass) (hu : u.Sound) {cs : List (List Nat)}
    (hch : Chunks cs) (k : Nat) (hk : k ≤ cs.length) :
    ∃ f s, firstBlock u cs.flatten (off cs k) = .ok (Branch.block, f, s)
      ∧ ∃ j', j' ≤ cs.length ∧ u.isSpace (cpAt cs j') = false
        ∧ s = (cs.flatten.drop (off cs j')).takeWhile (fun b => b != 0) := by
  have hl := hch.length_le
  obtain ⟨j1, h1, h1', hb1, _⟩ := blockScan_off u false hch (cs.flatten.length + 2) k hk
    (by omega)
  obtain ⟨j2, h2, h2', hb2, hpost⟩ := blockScan_off u true hch (cs.flatten.length + 2) j1 h1'
    (by omega)
  unfold firstBlock
  simp only [hb1, bind_ok, substr_zero, hb2, cstr_off, pure_ok]
  refine ⟨_, _, rfl, j2, h2', ?_, rfl⟩
  rcases hpost with h | h
  · rw [h]; exact hu.space_zero
  · simpa using h

theorem spaceBefore_off (u : CharClass) (hu : u.Sound) {cs : List (List Nat)}
    (hch : Chunks cs) (h0 : u.isSpace (cpAt cs 0) = false) (k : Nat) (hk : k < cs.length) :
    ∃ f s, spaceBefore u cs.flatten (off cs k) = .ok (Branch.spaceBefore, f, s)
      ∧ SpaceShape u cs true f s := by
  have hl := hch.length_le
  obtain ⟨j1, h1, hb1, hs1⟩ := backSpaces_off u hch h0 (cs.flatten.length + 2) k (by omega)
    (by omega)
  obtain ⟨j2, h2, h2', hb2, hs2⟩ := fwdSpaces_off u hu.space_zero hch (cs.flatten.length + 2) k
    (by omega) (by omega)
  unfold spaceBefore
  simp only [hb1, bind_ok, substr_zero, hb2, cstr_off, pure_ok]
  exact ⟨_, _, rfl, j1, j2, by omega, h2', hs1, hs2, rfl, by simp⟩

theorem spaceBreak_off (u : CharClass) (hu : u.Sound) {cs : List (List Nat)}
    (hch : Chunks cs) (h0 : u.isSpace (cpAt cs 0) = false) (k kn : Nat) (hk : k < cs.length)
    (hkn : kn ≤ cs.length) :
    ∃ f s, spaceBreak u cs.flatten (off cs k) (off cs kn) = .ok (Branch.space, f, s)
      ∧ SpaceShape u cs false f s := by
  have hl := hch.length_le
  obtain ⟨j1, h1, hb1, hs1⟩ := backSpaces_off u hch h0 (cs.flatten.length + 2) k (by omega)
    (by omega)
  obtain ⟨j2, h2, h2', hb2, hs2⟩ := fwdSpaces_off u hu.space_zero hch (cs.flatten.length + 2) kn
    hkn (by omega)
  have hsub : substrFrom cs.flatten (off cs j2) = .ok (cs.flatten.drop (off cs j2)) := by
    have := off_le_length cs j2
    simp only [substrFrom]
    rw [if_neg (by omega)]
  unfold spaceBreak
  simp only [hb1, bind_ok, substr_zero, hb2, hsub, pure_ok]
  exact ⟨_, _, rfl, j1, j2, by omega, h2', hs1, hs2, rfl, by simp⟩

theorem breakLoop_off (u : CharClass) (hu : u.Sound) (dict : Dictionary)
    (hlen : ∀ w, (dict w).length = w.length)
    (hskip : ∀ w i r, (dict w)[i]? = some (some r) → i + r.skip ≤ w.length)
    {cs : List (List Nat)} (hch : Chunks cs) (h0 : u.isSpace (cpAt cs 0) = false)
    (marker : List Nat) (border : Nat) :
    ∀ (n k : Nat), k < cs.length → k < n →
      ∃ res, breakLoop u dict cs.flatten marker border n (off cs k) = .ok res
        ∧ Shape u dict cs marker res := by
  have hl := hch.length_le
  intro n
  induction n with
  | zero => intro k _ h; omega
  | succ n ih =>
    intro k hk hn
    obtain ⟨j, w, hj, hjlt, hfw, hw⟩ := findWordStart_off u hch (cs.flatten.length + 2) k
      (u.isAlpha (cpAt cs k)) none (by omega) (by omega)
    rw [breakLoop]
    simp only [get_off hch k (by omega), bind_ok, hfw]
    have htry : ∃ res, tryWordAt u dict cs.flatten marker border w = .ok res
        ∧ ∀ p, res = some p → Shape u dict cs marker p := by
      rcases hw with rfl | ⟨m, hm, rfl⟩
      · exact ⟨none, rfl, fun p hp => by simp at hp⟩
      · exact tryWord_off u hu dict hlen hskip hch marker border m (by omega)
    obtain ⟨res, hres, hshape⟩ := htry
    simp only [hres, bind_ok]
    cases res with
    | some p => exact ⟨p, rfl, hshape p rfl⟩
    | none =>
      simp only
      by_cases hz : (off cs j == 0) = true
      · rw [if_pos hz]
        obtain ⟨f, s, hfb, hsh⟩ := firstBlock_off u hu hch j (by omega)
        exact ⟨_, hfb, hsh⟩
      · rw [if_neg hz]
        have hj0 : j ≠ 0 := by
          intro h
          subst h
          simp [off_zero] at hz
        have hjk : j < k := hjlt (by omega)
        simp only [get_off hch j (by omega), bind_ok]
        by_cases hsp : u.isSpace (cpAt cs j) = true
        · rw [if_pos hsp]
          obtain ⟨f, s, hsb, hsh⟩ := spaceBefore_off u hu hch h0 j (by omega)
          exact ⟨_, hsb, hsh⟩
        · rw [if_neg hsp]
          exact ih j (by omega) (by omega)

theorem hyphenate_at_shape (u : CharClass) (hu : u.Sound) (dict : Dictionary)
    (hlen : ∀ w, (dict w).length = w.length)
    (hskip : ∀ w i r, (dict w)[i]? = some (some r) → i + r.skip ≤ w.length)
    {cs : List (List Nat)} (hch : Chunks cs) (h0 : u.isSpace (cpAt cs 0) = false)
    (marker : List Nat) (len : Nat) (hlt : len < cs.length) :
    ∃ res, hyphenate_atTraced u dict cs.flatten marker len = .ok res
      ∧ Shape u dict cs marker res := by
  have hl := hch.length_le
  have hadv := advance_off hch len 0 (by omega)
  rw [off_zero, Nat.zero_add] at hadv
  unfold hyphenate_atTraced
  simp only [chunks_isValid hch, Bool.not_true, Bool.false_eq_true, if_false, hadv, bind_ok]
  have hpeek : ∃ kn, kn ≤ cs.length ∧ peekNext u cs.flatten (off cs len) = .ok (off cs kn) := by
    unfold peekNext
    simp only [get_off hch len (by omega), bind_ok]
    by_cases hs : u.isSpace (cpAt cs len) = true
    · simp only [hs, Bool.not_true, Bool.false_eq_true, if_false]
      exact ⟨len, by omega, rfl⟩
    · simp only [hs, Bool.not_false, if_true]
      exact ⟨len + 1, by omega, next_off hch len hlt⟩
  obtain ⟨kn, hkn, hpk⟩ := hpeek
  simp only [hpk, bind_ok, get_off hch kn hkn]
  by_cases hs : u.isSpace (cpAt cs kn) = true
  · rw [if_pos hs]
    obtain ⟨f, s, hsb, hsh⟩ := spaceBreak_off u hu hch h0 len kn hlt hkn
    exact ⟨_, hsb, hsh⟩
  · rw [if_neg hs]
    exact breakLoop_off u hu dict hlen hskip hch h0 marker _ _ len hlt (by omega)

/-! ### Bounds safety and whitespace at the split -/

theorem dictAt_length (is : List Nat) (w : List Nat) : (dictAt is w).length = w.length := by
  simp [dictAt]

theorem dictAt_skip (is : List Nat) (w : List Nat) (i : Nat) (r : HyphenationRule)
    (h : (dictAt is w)[i]? = some (some r)) : i + r.skip ≤ w.length := by
  have hlt := (List.getElem?_eq_some_iff.1 h).1
  rw [dictAt_length] at hlt
  obtain ⟨hr, _⟩ := dictAt_get _ _ _ _ h
  subst hr
  simp only [HyphenationRule.ordinary]
  omega

/-- The general run of `hyphenate_at`, from hypotheses on the text. -/
theorem hyphenate_at_shape_text (u : CharClass) (hu : u.Sound) (dict : Dictionary)
    (text marker : List Nat) (len : Nat)
    (hvalid : isValid text = true)
    (hfirst : ∀ c ∈ (codePoints text).head?, u.isSpace c = false)
    (hlen : len < (codePoints text).length)
    (hrules : ∀ w, (dict w).length = w.length)
    (hskip : ∀ w i r, (dict w)[i]? = some (some r) → i + r.skip ≤ w.length) :
    ∃ cs, text = cs.flatten ∧ Chunks cs ∧ ∃ res,
      hyphenate_atTraced u dict text marker len = .ok res ∧ Shape u dict cs marker res := by
  obtain ⟨cs, rfl, hch⟩ := isValid_chunks hvalid
  rw [codePoints_flatten hch] at hfirst hlen
  rw [List.length_map] at hlen
  have h0 : u.isSpace (cpAt cs 0) = false := by
    cases cs with
    | nil => simp at hlen
    | cons c rest =>
      have := hfirst (decode c) (by simp)
      simpa [cpAt] using this
  exact ⟨cs, rfl, hch, hyphenate_at_shape u hu dict hrules hskip hch h0 marker len hlen⟩

/-- C16: bounds safety of the break search. For every valid text whose first code point is
not whitespace, every `columnLimit` below the code-point count, and every dictionary whose
rule vectors have one entry per byte of the word and whose rules consume no more bytes than
remain in the word, `hyphenate_at` returns a pair: no read falls outside the bytes of the
text and its terminator, no index outside the rule vector, and no `substr` starts beyond
`|text|` (each of which the embedding reports as a failure instead of a pair). The
classification is any one in which `U+0000` is neither a letter nor whitespace. -/
theorem hyphenate_at_in_bounds (u : CharClass) (hu : u.Sound) (dict : Dictionary)
    (text marker : List Nat) (len : Nat)
    (hvalid : isValid text = true)
    (hfirst : ∀ c ∈ (codePoints text).head?, u.isSpace c = false)
    (hlen : len < (codePoints text).length)
    (hrules : ∀ w, (dict w).length = w.length)
    (hskip : ∀ w i r, (dict w)[i]? = some (some r) → i + r.skip ≤ w.length) :
    ∃ br first second,
      hyphenate_atTraced u dict text marker len = .ok (br, first, second)
        ∧ hyphenate_at u dict text marker len = .ok (first, second) := by
  obtain ⟨cs, _, _, ⟨br, first, second⟩, hres, _⟩ :=
    hyphenate_at_shape_text u hu dict text marker len hvalid hfirst hlen hrules hskip
  refine ⟨br, first, second, hres, ?_⟩
  rw [hyphenate_at, hres]
  rfl

theorem seq_suffix_unique {P Q c1 c2 : List Nat} (h : P ++ c1 = Q ++ c2) (h1 : IsSeq c1)
    (h2 : IsSeq c2) : c1 = c2 := by
  have key : ∀ (a c d : List Nat), IsSeq c → IsSeq d → c = a ++ d → c = d := by
    intro a c d hc hd e
    cases a with
    | nil => simpa using e
    | cons x a' =>
      exfalso
      obtain ⟨b0, t, hct, _, _, htl, _⟩ := hc.facts
      obtain ⟨d0, td, hdt, _, hd0, _⟩ := hd.facts
      rw [hct, hdt] at e
      simp only [List.cons_append, List.cons.injEq] at e
      have : d0 ∈ t := by rw [e.2]; simp
      have := htl d0 this
      rw [hd0] at this
      exact absurd this (by simp)
  rcases List.append_eq_append_iff.1 h with ⟨a, _, e⟩ | ⟨a, _, e⟩
  · exact key a c1 c2 h1 h2 e
  · exact (key a c2 c1 h2 h1 e).symm

theorem seq_prefix_unique {c1 c2 X Y : List Nat} (h : c1 ++ X = c2 ++ Y) (h1 : IsSeq c1)
    (h2 : IsSeq c2) : c1 = c2 := by
  have e1 := h1.seqOk_append X
  have e2 := h2.seqOk_append Y
  rw [h, e2] at e1
  exact List.append_inj_left h e1.symm

theorem take_off_succ {cs : List (List Nat)} (hch : Chunks cs) (j : Nat) (hj : j < cs.length) :
    ∃ b0 t, cs[j] = b0 :: t ∧ isTail b0 = false
      ∧ cs.flatten.take (off cs j + 1) = (cs.take j).flatten ++ [b0] := by
  obtain ⟨b0, t, hc, _, h0, _⟩ := (hch _ (List.getElem_mem hj)).facts
  refine ⟨b0, t, hc, h0, ?_⟩
  have e := flatten_split cs j hj
  rw [hc] at e
  rw [e]
  simp only [off]
  rw [List.take_append_eq_append_take]
  simp

theorem noEnd_cut (u : CharClass) {cs : List (List Nat)} (hch : Chunks cs) (j : Nat)
    (hj : j < cs.length) (hs : u.isSpace (cpAt cs j) = false) :
    ¬ EndsWithSpace u (cs.flatten.take (off cs j + 1)) := by
  rintro ⟨p, c, he, hc, hsp⟩
  obtain ⟨b0, t, hcj, hb0, htake⟩ := take_off_succ hch j hj
  rw [htake] at he
  obtain ⟨h, tl, hct, _, hh, htl, _⟩ := hc.facts
  have hseq := hch _ (List.getElem_mem hj)
  rcases List.eq_nil_or_concat tl with rfl | ⟨tl', x, rfl⟩
  · -- the sequence is the single byte `b0`
    have e : c = [b0] := by
      rw [hct] at he ⊢
      have := List.append_inj_right' he (by simp)
      exact this.symm
    rcases hc.shape with ⟨b, hb, hlt⟩ | ⟨_, _, hb, _⟩ | ⟨_, _, _, hb, _⟩ | ⟨_, _, _, _, hb, _⟩
    · rw [e] at hb
      have hbb : b0 = b := by simpa using hb
      subst hbb
      obtain ⟨b1, t1, hc1, hlen1, _⟩ := hseq.facts
      rw [hcj] at hc1
      have hb1 : b1 = b0 := by
        have := congrArg List.head? hc1
        simpa using this.symm
      subst hb1
      have h1 : seqLen b1 = 1 := by
        unfold seqLen
        rw [if_pos (by omega)]
      rw [h1, hcj] at hlen1
      have ht : t = [] := by
        cases t with
        | nil => rfl
        | cons _ _ => simp at hlen1
      rw [cpAt_lt cs j hj, hcj, ht, ← e, hsp] at hs
      exact absurd hs (by simp)
    all_goals (rw [e] at hb; simp at hb)
  · -- the last byte of a longer sequence is a tail byte
    rw [hct, List.concat_eq_append] at he
    have e2 : (cs.take j).flatten ++ [b0] = (p ++ h :: tl') ++ [x] := by
      rw [he]; simp
    have hx : b0 = x := by
      have := List.append_inj_right' e2 rfl
      simpa using this
    have := htl x (by simp [List.concat_eq_append])
    rw [← hx, hb0] at this
    exact absurd this (by simp)

theorem drop_off {cs : List (List Nat)} (j : Nat) (hj : j < cs.length) :
    cs.flatten.drop (off cs j) = cs[j] ++ (cs.drop (j + 1)).flatten := by
  have e := flatten_split cs j hj
  conv_lhs => rw [e]
  simp only [off]
  exact List.drop_left _ _

theorem noBegin_prefix (u : CharClass) {cs : List (List Nat)} (hch : Chunks cs) (j : Nat)
    (hs : u.isSpace (cpAt cs j) = false) (s : List Nat)
    (hpre : s <+: cs.flatten.drop (off cs j)) : ¬ BeginsWithSpace u s := by
  rintro ⟨c, t, he, hc, hsp⟩
  obtain ⟨Y, hY⟩ := hpre
  by_cases hj : j < cs.length
  · rw [drop_off j hj, he, List.append_assoc] at hY
    have := seq_prefix_unique hY hc (hch _ (List.getElem_mem hj))
    rw [cpAt_lt cs j hj, ← this, hsp] at hs
    exact absurd hs (by simp)
  · have hd : cs.flatten.drop (off cs j) = [] := by
      rw [off_of_le cs j (by omega)]
      simp
    rw [hd, he] at hY
    have : c = [] := by
      cases c with
      | nil => rfl
      | cons _ _ => simp at hY
    exact hc.1 this

theorem noEnd_marker (u : CharClass) (marker : List Nat) (hmv : isValid marker = true)
    (hmne : marker ≠ []) (hml : ∀ c ∈ (codePoints marker).getLast?, u.isSpace c = false)
    (X : List Nat) : ¬ EndsWithSpace u (X ++ marker) := by
  obtain ⟨ms, rfl, hms⟩ := isValid_chunks hmv
  rw [codePoints_flatten hms] at hml
  rcases List.eq_nil_or_concat ms with rfl | ⟨ms', lm, rfl⟩
  · exact absurd rfl hmne
  · rw [List.concat_eq_append] at hml hms
    have hlm : u.isSpace (decode lm) = false := hml (decode lm) (by simp)
    have hseq : IsSeq lm := hms lm (by simp)
    rintro ⟨p, c, he, hc, hsp⟩
    have e : (X ++ ms'.flatten) ++ lm = p ++ c := by
      rw [← he]
      simp [List.concat_eq_append]
    have := seq_suffix_unique e hseq hc
    rw [this, hsp] at hlm
    exact absurd hlm (by simp)

theorem locate (cs : List (List Nat)) (p : Nat) :
    ∀ k, p < off cs k → ∃ q, q < k ∧ off cs q ≤ p ∧ p < off cs (q + 1) := by
  intro k
  induction k with
  | zero => intro h; rw [off_zero] at h; omega
  | succ k ih =>
    intro h
    by_cases hk : p < off cs k
    · obtain ⟨q, hq, h1, h2⟩ := ih hk
      exact ⟨q, by omega, h1, h2⟩
    · exact ⟨k, by omega, by omega, h⟩

theorem noBegin_inside (u : CharClass) (hu : u.Sound) {cs : List (List Nat)}
    (hch : Chunks cs) (m m' p : Nat) (hm' : m' ≤ cs.length)
    (halpha : ∀ q, m ≤ q → q < m' → u.isAlpha (cpAt cs q) = true)
    (h1 : off cs m ≤ p) (h2 : p < off cs m') (s : List Nat)
    (hpre : s <+: cs.flatten.drop p) : ¬ BeginsWithSpace u s := by
  obtain ⟨q, hq, hq1, hq2⟩ := locate cs p m' h2
  have hmq : m ≤ q := by
    by_contra hlt
    have := off_mono cs (show q + 1 ≤ m by omega)
    omega
  have hqa := halpha q hmq hq
  have hqs : u.isSpace (cpAt cs q) = false := not_space_of_alpha u hu hqa
  have hql : q < cs.length := by omega
  by_cases hd : p = off cs q
  · subst hd
    exact noBegin_prefix u hch q hqs s hpre
  · rintro ⟨c, t, he, hc, hsp⟩
    obtain ⟨b0, tl, hcq, _, _, htl, _⟩ := (hch _ (List.getElem_mem hql)).facts
    have hlen : off cs (q + 1) = off cs q + (tl.length + 1) := by
      rw [off_succ cs q hql, hcq]
      simp
    obtain ⟨d, hdp⟩ : ∃ d, p = off cs q + (d + 1) := ⟨p - off cs q - 1, by omega⟩
    have hdl : d < tl.length := by omega
    have hdrop : cs.flatten.drop p = tl.drop d ++ (cs.drop (q + 1)).flatten := by
      rw [hdp, ← List.drop_drop, drop_off q hql, hcq]
      simp only [List.cons_append, List.drop_succ_cons]
      exact List.drop_append_of_le_length (by omega)
    obtain ⟨x, rest, hx⟩ : ∃ x rest, tl.drop d = x :: rest := by
      cases hdd : tl.drop d with
      | nil =>
        have := congrArg List.length hdd
        simp at this
        omega
      | cons x rest => exact ⟨x, rest, rfl⟩
    have hxt : isTail x = true := htl x (List.mem_of_mem_drop (by rw [hx]; simp))
    obtain ⟨c0, ct, hcc, _, hc0, _⟩ := hc.facts
    obtain ⟨Y, hY⟩ := hpre
    rw [hdrop, hx, he, hcc] at hY
    simp only [List.cons_append, List.cons.injEq] at hY
    rw [hY.1, hxt] at hc0
    exact absurd hc0 (by simp)

theorem allOrdinary_get {rules : Rules} (h : allOrdinary rules = true) {i : Nat}
    {r : HyphenationRule} (hr : rules[i]? = some (some r)) : r.isOrdinary = true := by
  have hmem : some r ∈ rules := List.getElem?_mem hr
  simp only [allOrdinary, List.all_eq_true] at h
  exact h _ hmem

theorem dictAt_ordinary (is : List Nat) (w : List Nat) : allOrdinary (dictAt is w) = true := by
  simp only [allOrdinary, List.all_eq_true]
  intro x hx
  cases x with
  | none => rfl
  | some r =>
    obtain ⟨i, hi⟩ := List.getElem?_of_mem hx
    obtain ⟨hr, _⟩ := dictAt_get _ _ _ _ hi
    subst hr
    rfl

theorem beginsWithSpace_spec (u : CharClass) (s : List Nat)
    (h : beginsWithSpace u s = true) : BeginsWithSpace u s := by
  simp only [beginsWithSpace, Bool.and_eq_true, bne_iff_ne, ne_eq] at h
  obtain ⟨h0, hs⟩ := h
  obtain ⟨c, t, hc, hseq, hlen⟩ := seqOk_split s h0
  have e : s.take (seqOk s) = c := by
    rw [← hlen]
    conv_lhs => rw [hc]
    exact List.take_left _ _
  rw [e] at hs
  exact ⟨c, t, hc, hseq, hs⟩

theorem endsWithSpace_spec (u : CharClass) (s : List Nat)
    (h : endsWithSpace u s = true) : EndsWithSpace u s := by
  simp only [endsWithSpace, List.any_eq_true, List.mem_range, Bool.and_eq_true,
    decide_eq_true_eq, beq_iff_eq] at h
  obtain ⟨k, _, ⟨hk, hseq⟩, hs⟩ := h
  refine ⟨s.take (s.length - (k + 1)), s.drop (s.length - (k + 1)),
    (List.take_append_drop _ _).symm, ⟨?_, ?_⟩, hs⟩
  · intro hnil
    have := congrArg List.length hnil
    simp only [List.length_drop, List.length_nil] at this
    omega
  · rw [hseq, List.length_drop]
    omega

/-- The pair of `hyphenate_at` has no whitespace at the split, outside the first line of
the first-block fallback. -/
theorem no_stray_whitespace_shape (u : CharClass) (hu : u.Sound) (dict : Dictionary)
    (text marker : List Nat) (len : Nat)
    (hvalid : isValid text = true)
    (hfirst : ∀ c ∈ (codePoints text).head?, u.isSpace c = false)
    (hlen : len < (codePoints text).length)
    (hrules : ∀ w, (dict w).length = w.length)
    (hord : ∀ w, allOrdinary (dict w) = true)
    (hmv : isValid marker = true) (hmne : marker ≠ [])
    (hml : ∀ c ∈ (codePoints marker).getLast?, u.isSpace c = false) :
    ∃ br first second,
      hyphenate_atTraced u dict text marker len = .ok (br, first, second)
        ∧ hyphenate_at u dict text marker len = .ok (first, second)
        ∧ ¬ BeginsWithSpace u second
        ∧ (br ≠ Branch.block → ¬ EndsWithSpace u first) := by
  have hskip : ∀ w i r, (dict w)[i]? = some (some r) → i + r.skip ≤ w.length := by
    intro w i r hr
    have hlt := (List.getElem?_eq_some_iff.1 hr).1
    rw [hrules] at hlt
    obtain ⟨_, _, hs⟩ := ordinary_fields (allOrdinary_get (hord w) hr)
    omega
  obtain ⟨cs, rfl, hch, ⟨br, first, second⟩, hres, hshape⟩ :=
    hyphenate_at_shape_text u hu dict text marker len hvalid hfirst hlen hrules hskip
  refine ⟨br, first, second, hres, by rw [hyphenate_at, hres]; rfl, ?_⟩
  have hyph : HyphShape u dict cs marker first second →
      ¬ BeginsWithSpace u second ∧ ¬ EndsWithSpace u first := by
    rintro ⟨m, m', i, r, hmm, hm', halpha, hi, hr, hf, hs⟩
    obtain ⟨hpre, hpost, hsk⟩ := ordinary_fields (allOrdinary_get (hord _) hr)
    rw [hpre, List.append_nil] at hf
    rw [hpost, hsk, List.nil_append, Nat.add_zero] at hs
    constructor
    · rw [hs]
      exact noBegin_inside u hu hch m m' _ hm' halpha (by omega) hi _
        (List.takeWhile_prefix _)
    · rw [hf]
      exact noEnd_marker u marker hmv hmne hml _
  have hsp : ∀ cut, SpaceShape u cs cut first second →
      ¬ BeginsWithSpace u second ∧ ¬ EndsWithSpace u first := by
    rintro cut ⟨j, j', hj, hj', hs1, hs2, hf, hs⟩
    constructor
    · rw [hs]
      cases cut with
      | true => exact noBegin_prefix u hch j' hs2 _ (List.takeWhile_prefix _)
      | false => exact noBegin_prefix u hch j' hs2 _ (List.prefix_refl _)
    · rw [hf]
      exact noEnd_cut u hch j hj hs1
  cases br with
  | space => exact ⟨(hsp false hshape).1, fun _ => (hsp false hshape).2⟩
  | spaceBefore => exact ⟨(hsp true hshape).1, fun _ => (hsp true hshape).2⟩
  | fit => exact ⟨(hyph hshape).1, fun _ => (hyph hshape).2⟩
  | earliest => exact ⟨(hyph hshape).1, fun _ => (hyph hshape).2⟩
  | block =>
    obtain ⟨j', hj', hs2, hs⟩ := hshape
    refine ⟨?_, fun h => absurd rfl h⟩
    rw [hs]
    exact noBegin_prefix u hch j' hs2 _ (List.takeWhile_prefix _)

/-- C14, amended: for every valid text whose first code point is not whitespace, every
valid non-empty marker whose last code point is not whitespace, every `columnLimit` below
the code-point count and every dictionary of ordinary rules (one entry per byte),
`hyphenate_at` returns a pair whose `remainder` does not begin with a whitespace code
point, and whose `firstLine` does not end with a whitespace code point unless the pair
comes from the first-block fallback of lines 289-300. -/
theorem no_stray_whitespace (u : CharClass) (hu : u.Sound) (dict : Dictionary)
    (text marker : List Nat) (len : Nat)
    (hvalid : isValid text = true)
    (hfirst : ∀ c ∈ (codePoints text).head?, u.isSpace c = false)
    (hlen : len < (codePoints text).length)
    (hrules : ∀ w, (dict w).length = w.length)
    (hord : ∀ w, allOrdinary (dict w) = true)
    (hmv : isValid marker = true) (hmne : marker ≠ [])
    (hml : ∀ c ∈ (codePoints marker).getLast?, u.isSpace c = false) :
    ∃ br first second,
      hyphenate_atTraced u dict text marker len = .ok (br, first, second)
        ∧ hyphenate_at u dict text marker len = .ok (first, second)
        ∧ beginsWithSpace u second = false
        ∧ (br ≠ Branch.block → endsWithSpace u first = false) := by
  obtain ⟨br, first, second, h1, h2, h3, h4⟩ := no_stray_whitespace_shape u hu dict text marker
    len hvalid hfirst hlen hrules hord hmv hmne hml
  refine ⟨br, first, second, h1, h2, ?_, ?_⟩
  · cases hb : beginsWithSpace u second with
    | false => rfl
    | true => exact absurd (beginsWithSpace_spec u second hb) h3
  · intro hbr
    cases he : endsWithSpace u first with
    | false => rfl
    | true => exact absurd (endsWithSpace_spec u first he) (h4 hbr)

/-- C14, as stated, fails. The marker is appended as it is (line 281): with the marker
`" "`, `"abcdef"`, `columnLimit = 4` and a candidate at byte 2 the first line is `"ab "`.
With the empty marker and a candidate at byte 0 of `"bbbb"` in `"aa bbbb"`,
`columnLimit = 4`, the first line is `"aa "`, the text up to the word. -/
theorem no_stray_whitespace_counterexample :
    isValid wordAbcdef = true
      ∧ (∀ c ∈ (codePoints wordAbcdef).head?, latinClass.isSpace c = false)
      ∧ 4 < (codePoints wordAbcdef).length
      ∧ (∀ w, allOrdinary (dictAt [2] w) = true)
      ∧ hyphenate_atTraced latinClass (dictAt [2]) wordAbcdef blank 4
          = .ok (Branch.fit, [97, 98, 32], [99, 100, 101, 102])
      ∧ endsWithSpace latinClass [97, 98, 32] = true
      ∧ isValid textAaBbbb = true
      ∧ (∀ c ∈ (codePoints textAaBbbb).head?, latinClass.isSpace c = false)
      ∧ 4 < (codePoints textAaBbbb).length
      ∧ (∀ w, allOrdinary (dictAt [0] w) = true)
      ∧ hyphenate_atTraced latinClass (dictAt [0]) textAaBbbb [] 4
          = .ok (Branch.fit, [97, 97, 32], [98, 98, 98, 98])
      ∧ endsWithSpace latinClass [97, 97, 32] = true := by
  refine ⟨by decide, by decide, by decide, dictAt_ordinary _, by decide, by decide, by decide,
    by decide, by decide, dictAt_ordinary _, by decide, by decide⟩

/-- Witness of amended C14: `"aa bb cc"`, `columnLimit = 4`, marker `"-"`, a candidate at
byte 1 of each word. -/
theorem no_stray_whitespace_witness :
    latinClass.Sound ∧ isValid textAaBbCc = true
      ∧ (∀ c ∈ (codePoints textAaBbCc).head?, latinClass.isSpace c = false)
      ∧ 4 < (codePoints textAaBbCc).length
      ∧ (∀ w, (dictAt [1] w).length = w.length)
      ∧ (∀ w, allOrdinary (dictAt [1] w) = true)
      ∧ isValid dash = true ∧ dash ≠ []
      ∧ (∀ c ∈ (codePoints dash).getLast?, latinClass.isSpace c = false)
      ∧ (∃ br first second,
          hyphenate_atTraced latinClass (dictAt [1]) textAaBbCc dash 4
              = .ok (br, first, second)
            ∧ hyphenate_at latinClass (dictAt [1]) textAaBbCc dash 4 = .ok (first, second)
            ∧ beginsWithSpace latinClass second = false
            ∧ (br ≠ Branch.block → endsWithSpace latinClass first = false))
      ∧ hyphenate_atTraced latinClass (dictAt [1]) textAaBbCc dash 4
          = .ok (Branch.space, [97, 97, 32, 98, 98], [99, 99]) :=
  ⟨latinClass_sound, by decide, by decide, by decide, dictAt_length _, dictAt_ordinary _,
    by decide, by decide, by decide,
    no_stray_whitespace latinClass latinClass_sound (dictAt [1]) textAaBbCc dash 4 (by decide)
      (by decide) (by decide) (dictAt_length _) (dictAt_ordinary _) (by decide) (by decide)
      (by decide),
    by decide⟩

/-- Witness of C16: `"a, abcdef gh"`, `columnLimit = 7`, candidates at bytes 2 and 4 of
each word, marker `"-"`. -/
theorem hyphenate_at_in_bounds_witness :
    latinClass.Sound ∧ isValid (textBefore ++ wordAbcdef ++ textAfter) = true
      ∧ (∀ c ∈ (codePoints (textBefore ++ wordAbcdef ++ textAfter)).head?,
          latinClass.isSpace c = false)
      ∧ 7 < (codePoints (textBefore ++ wordAbcdef ++ textAfter)).length
      ∧ (∀ w, (dictAt [2, 4] w).length = w.length)
      ∧ (∀ w i r, (dictAt [2, 4] w)[i]? = some (some r) → i + r.skip ≤ w.length)
      ∧ (∃ br first second,
          hyphenate_atTraced latinClass (dictAt [2, 4]) (textBefore ++ wordAbcdef ++ textAfter)
              dash 7 = .ok (br, first, second)
            ∧ hyphenate_at latinClass (dictAt [2, 4]) (textBefore ++ wordAbcdef ++ textAfter)
              dash 7 = .ok (first, second)) :=
  ⟨latinClass_sound, by decide, by decide, by decide, dictAt_length _, dictAt_skip _,
    hyphenate_at_in_bounds latinClass latinClass_sound (dictAt [2, 4])
      (textBefore ++ wordAbcdef ++ textAfter) dash 7 (by decide) (by decide) (by decide)
      (dictAt_length _) (dictAt_skip _)⟩

/-! ### Whitespace before the word -/

theorem off_length (A : List (List Nat)) : off A A.length = A.flatten.length :=
  off_of_le A _ (le_refl _)

end Hyphenate
